import Mathlib

/-!
Verification of the dependency-discovery and graph-construction core of the
`chungus` project (crate `chungus_ops`), shallowly embedded in Lean.

Paths are modelled as lists of components (`List String`); an absolute,
canonicalized path (`Location` in `module.rs`) is such a list measured from
the filesystem root.  The filesystem snapshot is explicit (`FS`), so the
canonicalization performed by `Location::new` becomes an existence check of an
already-normalized path.  Machinery that performs raw I/O
(`process_javascript_file`, `process_package_json` in `file.rs`) is passed to
the cache builder as explicit function parameters: on a fixed snapshot each is
a function from a location to a parse result, which is exactly how
`lib.rs` consumes them.

Rust `HashMap`s are modelled as functions into `Option`, `HashSet`s of
indices as duplicate-free lists with membership-checking insertion, and
`Vec` stacks (`push`/`pop`) as lists whose head is the top.  Fuel makes the
recursions of `lib.rs` and `analysis.rs` structural; exhaustion is reported
through a dedicated `outOfFuel` outcome that is never conflated with the
program's own error values.
-/

set_option maxRecDepth 10000
set_option linter.dupNamespace false

namespace Chungus

/-- A canonicalized absolute path, as the component list below the root.
Mirrors `Location` from `module.rs` (equality is by canonical path). -/
abbrev Location := List String

/-- A path relative to the resolver root, as in `RelativePath` from
`module.rs`.  It may contain `..` components, as produced by `pathdiff`. -/
abbrev RelativePath := List String

/-- A not-yet-canonicalized path value (Rust `PathBuf`): a flag for
absoluteness plus raw components, which may include `.` and `..`. -/
structure UPath where
  abs : Bool
  comps : List String
deriving DecidableEq

/-- `ModuleKind` from `module.rs`. -/
inductive ModuleKind where
  | NodeModule
  | NormalModule
deriving DecidableEq

/-- `Asset` from `module.rs`. -/
inductive Asset where
  | NodePackage (package_directory : Location) (target_file : Location)
  | Asset (path : Location)
  | Module (path : Location)
  | Unresolved (path : UPath)
deriving DecidableEq

/-- `Dependency` from `module.rs`: an asset tagged with the import flavor. -/
inductive Dependency where
  | Require (a : Asset)
  | Import (a : Asset)
  | AsyncImport (a : Asset)
deriving DecidableEq

/-- `Dependency::asset`. -/
def Dependency.asset : Dependency → Asset
  | .Require a => a
  | .Import a => a
  | .AsyncImport a => a

/-- `Asset::location`: the location a dependency resolves to, if any. -/
def Asset.location : Chungus.Asset → Option Location
  | .NodePackage _ target_file => some target_file
  | .Asset path => some path
  | .Module path => some path
  | .Unresolved _ => none

/-- `Dependency::location`. -/
def Dependency.location (d : Dependency) : Option Location :=
  d.asset.location

/-- `Module` from `module.rs`. -/
structure Module where
  location : Location
  kind : ModuleKind
  dependencies : List Dependency
deriving DecidableEq

/-! ## Module cache builder (`lib.rs`) -/

/-- `DependencyCache` from `lib.rs`: a map from `Location` to `Module`. -/
abbrev DependencyCache := Location → Option Module

def emptyCache : DependencyCache := fun _ => none

/-- `HashMap::insert`. -/
def cacheInsert (c : DependencyCache) (k : Location) (m : Module) : DependencyCache :=
  fun l => if l = k then some m else c l

/-- `HashMap::contains_key`. -/
def cacheContains (c : DependencyCache) (k : Location) : Bool :=
  (c k).isSome

/-- The result of a file-processing operation (`process_javascript_file` or
`process_package_json` from `file.rs`) on the fixed filesystem snapshot:
either a parsed `Module` or a `CoreError` carrying a message string. -/
abbrev FileProcessor := Location → Except String Module

/-- Outcome of a cache-building run.  `ok`/`error` mirror
`Result<(), CoreError>`; `outOfFuel` marks an aborted model run whose fuel
bound was too small (it never occurs for sufficient fuel). -/
inductive BuildOutcome where
  | ok
  | error (msg : String)
  | outOfFuel
deriving DecidableEq

/-- The dependency `for`-loop of `recursively_build_dependency_tree`
(`lib.rs` lines 58-104), with the recursive call abstracted as `step`.
The `Result` of the recursive call is dropped by the source (`lib.rs`
lines 84 and 94: no `?`), so an `error` outcome of `step` is discarded
here as well; only the model-level `outOfFuel` marker is propagated. -/
def dependencyLoop (processJs processPkg : FileProcessor)
    (step : DependencyCache → Module → DependencyCache × BuildOutcome)
    (cache : DependencyCache) : List Dependency → DependencyCache × BuildOutcome
  | [] => (cache, .ok)
  | dep :: rest =>
    match dep.location with
    | none => dependencyLoop processJs processPkg step cache rest
    | some location =>
      if cacheContains cache location then
        dependencyLoop processJs processPkg step cache rest
      else
        match dep.asset with
        | .NodePackage package_directory target_file =>
          match processPkg package_directory with
          | .error e => (cache, .error e)
          | .ok m =>
            let cache :=
              if target_file ≠ package_directory then
                cacheInsert cache package_directory m
              else cache
            let cache := cacheInsert cache target_file m
            let r := step cache m
            if r.2 = .outOfFuel then (r.1, .outOfFuel)
            else dependencyLoop processJs processPkg step r.1 rest
        | .Asset _ =>
          dependencyLoop processJs processPkg step cache rest
        | .Module path =>
          match processJs path with
          | .error e => (cache, .error e)
          | .ok m =>
            let cache := cacheInsert cache path m
            let r := step cache m
            if r.2 = .outOfFuel then (r.1, .outOfFuel)
            else dependencyLoop processJs processPkg step r.1 rest
        | .Unresolved _ =>
          dependencyLoop processJs processPkg step cache rest

/-- `recursively_build_dependency_tree` from `lib.rs`. -/
def recursively_build_dependency_tree (processJs processPkg : FileProcessor) :
    Nat → DependencyCache → Module → DependencyCache × BuildOutcome
  | 0, cache, _ => (cache, .outOfFuel)
  | fuel + 1, cache, m =>
    dependencyLoop processJs processPkg
      (recursively_build_dependency_tree processJs processPkg fuel) cache m.dependencies

/-- `build_dependency_cache` from `lib.rs`.  The entry is taken as an
already-canonicalized `Location` (the `Location::new(target)?` step). -/
def build_dependency_cache (processJs processPkg : FileProcessor) (fuel : Nat)
    (cache : DependencyCache) (target : Location) : DependencyCache × BuildOutcome :=
  match processJs target with
  | .error e => (cache, .error e)
  | .ok root_module =>
    let cache := cacheInsert cache target root_module
    recursively_build_dependency_tree processJs processPkg fuel cache root_module

/-! ### Cache-builder lemmas -/

/-- Keys can only be added by the builder, never removed. -/
def cacheLe (c c' : DependencyCache) : Prop :=
  ∀ l, (c l).isSome = true → (c' l).isSome = true

/-- A dependency is closed in a cache when the location its asset is
classified at (`Module` payload, or `NodePackage` target file) is a key. -/
def depClosedIn (c : DependencyCache) (dep : Dependency) : Prop :=
  (∀ p, dep.asset = .Module p → (c p).isSome = true) ∧
  (∀ pd tf, dep.asset = .NodePackage pd tf → (c tf).isSome = true)

/-- Every dependency of the module is closed in the cache. -/
def processedIn (c : DependencyCache) (m : Module) : Prop :=
  ∀ dep ∈ m.dependencies, depClosedIn c dep

/-- Every entry of `c'` was either already in `c` or holds a module all of
whose dependencies are closed in `c'`. -/
def newEntriesProcessedIn (c c' : DependencyCache) : Prop :=
  ∀ L M, c' L = some M → c L = some M ∨ processedIn c' M

theorem cacheLe_refl (c : DependencyCache) : cacheLe c c := fun _ h => h

theorem cacheLe_trans {a b c : DependencyCache} (h₁ : cacheLe a b) (h₂ : cacheLe b c) :
    cacheLe a c := fun l h => h₂ l (h₁ l h)

theorem cacheLe_insert (c : DependencyCache) (k : Location) (m : Module) :
    cacheLe c (cacheInsert c k m) := by
  intro l h
  simp only [cacheInsert]
  split <;> simp_all

theorem cacheInsert_self (c : DependencyCache) (k : Location) (m : Module) :
    cacheInsert c k m k = some m := by
  simp [cacheInsert]

theorem depClosedIn_mono {c c' : DependencyCache} (h : cacheLe c c') {dep : Dependency}
    (hd : depClosedIn c dep) : depClosedIn c' dep :=
  ⟨fun p hp => h p (hd.1 p hp), fun pd tf hp => h tf (hd.2 pd tf hp)⟩

theorem processedIn_mono {c c' : DependencyCache} (h : cacheLe c c') {m : Module}
    (hm : processedIn c m) : processedIn c' m :=
  fun dep hdep => depClosedIn_mono h (hm dep hdep)

theorem asset_location_module {dep : Dependency} {l p : Location}
    (hl : dep.location = some l) (ha : dep.asset = .Module p) : p = l := by
  rw [Dependency.location, ha] at hl
  simpa [Asset.location] using hl

theorem asset_location_nodePackage {dep : Dependency} {l pd tf : Location}
    (hl : dep.location = some l) (ha : dep.asset = .NodePackage pd tf) : tf = l := by
  rw [Dependency.location, ha] at hl
  simpa [Asset.location] using hl

theorem depClosedIn_of_contains {c : DependencyCache} {dep : Dependency} {l : Location}
    (hl : dep.location = some l) (hc : (c l).isSome = true) : depClosedIn c dep := by
  constructor
  · intro p hp
    rw [asset_location_module hl hp]
    exact hc
  · intro pd tf hp
    rw [asset_location_nodePackage hl hp]
    exact hc

theorem depClosedIn_of_no_location {c : DependencyCache} {dep : Dependency}
    (hl : dep.location = none) : depClosedIn c dep := by
  constructor
  · intro p hp
    rw [Dependency.location, hp] at hl
    simp [Asset.location] at hl
  · intro pd tf hp
    rw [Dependency.location, hp] at hl
    simp [Asset.location] at hl

theorem dependencyLoop_le (processJs processPkg : FileProcessor)
    (step : DependencyCache → Module → DependencyCache × BuildOutcome)
    (hstep : ∀ c m, cacheLe c (step c m).1) :
    ∀ deps cache, cacheLe cache (dependencyLoop processJs processPkg step cache deps).1 := by
  intro deps
  induction deps with
  | nil => intro cache; exact cacheLe_refl cache
  | cons dep rest ih =>
    intro cache
    cases hloc : dep.location with
    | none => simpa only [dependencyLoop, hloc] using ih cache
    | some location =>
      cases hcb : cacheContains cache location with
      | true => simpa only [dependencyLoop, hloc, hcb, if_true] using ih cache
      | false =>
        cases ha : dep.asset with
        | NodePackage pd tf =>
          cases hp : processPkg pd with
          | error e =>
            simp only [dependencyLoop, hloc, hcb, ha, hp, Bool.false_eq_true, if_false]
            exact cacheLe_refl cache
          | ok m =>
            simp only [dependencyLoop, hloc, hcb, ha, hp, Bool.false_eq_true, if_false]
            have h01 :
                cacheLe cache
                  (cacheInsert (if tf ≠ pd then cacheInsert cache pd m else cache) tf m) := by
              refine cacheLe_trans ?_ (cacheLe_insert _ tf m)
              split
              · exact cacheLe_insert cache pd m
              · exact cacheLe_refl cache
            set c₁ := cacheInsert (if tf ≠ pd then cacheInsert cache pd m else cache) tf m
            by_cases ho : (step c₁ m).2 = BuildOutcome.outOfFuel
            · simp only [ho, if_true]
              exact cacheLe_trans h01 (hstep c₁ m)
            · simp only [ho, if_false]
              exact cacheLe_trans (cacheLe_trans h01 (hstep c₁ m)) (ih _)
        | Asset p =>
          simpa only [dependencyLoop, hloc, hcb, ha, Bool.false_eq_true, if_false] using ih cache
        | Module p =>
          cases hp : processJs p with
          | error e =>
            simp only [dependencyLoop, hloc, hcb, ha, hp, Bool.false_eq_true, if_false]
            exact cacheLe_refl cache
          | ok m =>
            simp only [dependencyLoop, hloc, hcb, ha, hp, Bool.false_eq_true, if_false]
            have h01 : cacheLe cache (cacheInsert cache p m) := cacheLe_insert cache p m
            set c₁ := cacheInsert cache p m
            by_cases ho : (step c₁ m).2 = BuildOutcome.outOfFuel
            · simp only [ho, if_true]
              exact cacheLe_trans h01 (hstep c₁ m)
            · simp only [ho, if_false]
              exact cacheLe_trans (cacheLe_trans h01 (hstep c₁ m)) (ih _)
        | Unresolved p =>
          simpa only [dependencyLoop, hloc, hcb, ha, Bool.false_eq_true, if_false] using ih cache

theorem recursively_le (processJs processPkg : FileProcessor) :
    ∀ fuel cache m,
      cacheLe cache (recursively_build_dependency_tree processJs processPkg fuel cache m).1 := by
  intro fuel
  induction fuel with
  | zero => intro cache m; exact cacheLe_refl cache
  | succ n ih =>
    intro cache m
    simp only [recursively_build_dependency_tree]
    exact dependencyLoop_le processJs processPkg _ (fun c mm => ih c mm) m.dependencies cache

theorem depClosedIn_of_asset {c : DependencyCache} {dep : Dependency} {p : Location}
    (ha : dep.asset = .Asset p) : depClosedIn c dep := by
  constructor
  · intro q hq; rw [ha] at hq; cases hq
  · intro pd tf hq; rw [ha] at hq; cases hq

theorem depClosedIn_of_unresolved {c : DependencyCache} {dep : Dependency} {u : UPath}
    (ha : dep.asset = .Unresolved u) : depClosedIn c dep := by
  constructor
  · intro q hq; rw [ha] at hq; cases hq
  · intro pd tf hq; rw [ha] at hq; cases hq

/-- The only error values the dependency loop can return come from the
`process_javascript_file` / `process_package_json` calls it makes itself
(`lib.rs` lines 72 and 91); errors of the recursive calls are dropped. -/
theorem dependencyLoop_no_error (processJs processPkg : FileProcessor)
    (step : DependencyCache → Module → DependencyCache × BuildOutcome) :
    ∀ deps cache,
      (∀ dep ∈ deps,
        (∀ p, dep.asset = .Module p → (processJs p).isOk = true) ∧
        (∀ pd tf, dep.asset = .NodePackage pd tf → (processPkg pd).isOk = true)) →
      ∀ e, (dependencyLoop processJs processPkg step cache deps).2 ≠ .error e := by
  intro deps
  induction deps with
  | nil => intro cache _ e h; simp only [dependencyLoop] at h; cases h
  | cons dep rest ih =>
    intro cache hdeps e
    have hrest : ∀ dep ∈ rest,
        (∀ p, dep.asset = .Module p → (processJs p).isOk = true) ∧
        (∀ pd tf, dep.asset = .NodePackage pd tf → (processPkg pd).isOk = true) :=
      fun d hd => hdeps d (List.mem_cons_of_mem dep hd)
    cases hloc : dep.location with
    | none => simpa only [dependencyLoop, hloc] using ih cache hrest e
    | some location =>
      cases hcb : cacheContains cache location with
      | true => simpa only [dependencyLoop, hloc, hcb, if_true] using ih cache hrest e
      | false =>
        cases ha : dep.asset with
        | NodePackage pd tf =>
          cases hp : processPkg pd with
          | error e' =>
            have := (hdeps dep (List.mem_cons_self dep rest)).2 pd tf ha
            rw [hp] at this
            cases this
          | ok m =>
            simp only [dependencyLoop, hloc, hcb, ha, hp, Bool.false_eq_true, if_false]
            set c₁ := cacheInsert (if tf ≠ pd then cacheInsert cache pd m else cache) tf m
            by_cases ho : (step c₁ m).2 = BuildOutcome.outOfFuel
            · simp only [ho, if_true]
              intro h; cases h
            · simp only [ho, if_false]
              exact ih _ hrest e
        | Asset p =>
          simpa only [dependencyLoop, hloc, hcb, ha, Bool.false_eq_true, if_false] using
            ih cache hrest e
        | Module p =>
          cases hp : processJs p with
          | error e' =>
            have := (hdeps dep (List.mem_cons_self dep rest)).1 p ha
            rw [hp] at this
            cases this
          | ok m =>
            simp only [dependencyLoop, hloc, hcb, ha, hp, Bool.false_eq_true, if_false]
            set c₁ := cacheInsert cache p m
            by_cases ho : (step c₁ m).2 = BuildOutcome.outOfFuel
            · simp only [ho, if_true]
              intro h; cases h
            · simp only [ho, if_false]
              exact ih _ hrest e
        | Unresolved p =>
          simpa only [dependencyLoop, hloc, hcb, ha, Bool.false_eq_true, if_false] using
            ih cache hrest e

theorem recursively_no_error (processJs processPkg : FileProcessor)
    (hJs : ∀ l, (processJs l).isOk = true) (hPkg : ∀ l, (processPkg l).isOk = true) :
    ∀ fuel cache m e,
      (recursively_build_dependency_tree processJs processPkg fuel cache m).2 ≠ .error e := by
  intro fuel cache m e
  cases fuel with
  | zero => intro h; cases h
  | succ n =>
    simp only [recursively_build_dependency_tree]
    exact dependencyLoop_no_error processJs processPkg _ m.dependencies cache
      (fun d _ => ⟨fun p _ => hJs p, fun pd _ _ => hPkg pd⟩) e

theorem dependencyLoop_closure (processJs processPkg : FileProcessor)
    (step : DependencyCache → Module → DependencyCache × BuildOutcome)
    (hJs : ∀ l, (processJs l).isOk = true) (hPkg : ∀ l, (processPkg l).isOk = true)
    (hle : ∀ c m, cacheLe c (step c m).1)
    (hne : ∀ c m e, (step c m).2 ≠ .error e)
    (hcl : ∀ c m, (step c m).2 = .ok →
        newEntriesProcessedIn c (step c m).1 ∧ processedIn (step c m).1 m) :
    ∀ deps cache,
      (dependencyLoop processJs processPkg step cache deps).2 = .ok →
      newEntriesProcessedIn cache (dependencyLoop processJs processPkg step cache deps).1 ∧
        ∀ dep ∈ deps, depClosedIn (dependencyLoop processJs processPkg step cache deps).1 dep := by
  intro deps
  induction deps with
  | nil =>
    intro cache _
    refine ⟨fun L M h => .inl h, ?_⟩
    intro dep hdep; cases hdep
  | cons dep rest ih =>
    intro cache hok
    cases hloc : dep.location with
    | none =>
      simp only [dependencyLoop, hloc] at hok ⊢
      rcases ih cache hok with ⟨hnep, hcls⟩
      exact ⟨hnep, fun d hd => by
        rcases List.mem_cons.mp hd with rfl | hd'
        · cases haa : d.asset with
          | NodePackage pd tf =>
            rw [Dependency.location, haa] at hloc; cases hloc
          | Module p =>
            rw [Dependency.location, haa] at hloc; cases hloc
          | Asset p =>
            rw [Dependency.location, haa] at hloc; cases hloc
          | Unresolved u => exact depClosedIn_of_unresolved haa
        · exact hcls d hd'⟩
    | some location =>
      cases hcb : cacheContains cache location with
      | true =>
        simp only [dependencyLoop, hloc, hcb, if_true] at hok ⊢
        rcases ih cache hok with ⟨hnep, hcls⟩
        refine ⟨hnep, fun d hd => ?_⟩
        rcases List.mem_cons.mp hd with rfl | hd'
        · refine depClosedIn_of_contains hloc ?_
          exact dependencyLoop_le processJs processPkg step hle rest cache location hcb
        · exact hcls d hd'
      | false =>
        cases ha : dep.asset with
        | NodePackage pd tf =>
          cases hp : processPkg pd with
          | error e' =>
            have := hPkg pd
            rw [hp] at this
            cases this
          | ok m =>
            simp only [dependencyLoop, hloc, hcb, ha, hp, Bool.false_eq_true, if_false]
              at hok ⊢
            set c₁ := cacheInsert (if tf ≠ pd then cacheInsert cache pd m else cache) tf m
              with hc₁
            cases ho : (step c₁ m).2 with
            | error e' => exact absurd ho (hne c₁ m e')
            | outOfFuel =>
              rw [ho, if_pos rfl] at hok
              cases hok
            | ok =>
              have hneq : ¬(BuildOutcome.ok = BuildOutcome.outOfFuel) := by
                intro h; cases h
              rw [ho] at hok
              simp only [if_neg hneq] at hok ⊢
              rcases ih (step c₁ m).1 hok with ⟨hnep, hcls⟩
              rcases hcl c₁ m ho with ⟨hnep₁, hproc₁⟩
              have hle₂ : cacheLe (step c₁ m).1
                  (dependencyLoop processJs processPkg step (step c₁ m).1 rest).1 :=
                dependencyLoop_le processJs processPkg step hle rest _
              have htf : (c₁ tf).isSome = true := by
                rw [hc₁, cacheInsert_self]; rfl
              have hproc_final :
                  processedIn (dependencyLoop processJs processPkg step (step c₁ m).1 rest).1
                    m :=
                processedIn_mono hle₂ (processedIn_mono (cacheLe_refl _) hproc₁)
              refine ⟨?_, fun d hd => ?_⟩
              · intro L M hM
                rcases hnep L M hM with h₂ | hP
                · rcases hnep₁ L M h₂ with h₁ | hP₁
                  · rw [hc₁] at h₁
                    simp only [cacheInsert] at h₁
                    by_cases hLtf : L = tf
                    · rw [if_pos hLtf] at h₁
                      cases h₁
                      exact .inr hproc_final
                    · rw [if_neg hLtf] at h₁
                      by_cases hnepd : tf ≠ pd
                      · rw [if_pos hnepd] at h₁
                        simp only [cacheInsert] at h₁
                        by_cases hLpd : L = pd
                        · rw [if_pos hLpd] at h₁
                          cases h₁
                          exact .inr hproc_final
                        · rw [if_neg hLpd] at h₁
                          exact .inl h₁
                      · rw [if_neg hnepd] at h₁
                        exact .inl h₁
                  · exact .inr (processedIn_mono hle₂ hP₁)
                · exact .inr hP
              · rcases List.mem_cons.mp hd with rfl | hd'
                · refine depClosedIn_of_contains hloc ?_
                  have : tf = location := asset_location_nodePackage hloc ha
                  rw [← this]
                  exact hle₂ tf (hle c₁ m tf htf)
                · exact hcls d hd'
        | Asset p =>
          simp only [dependencyLoop, hloc, hcb, ha, Bool.false_eq_true, if_false] at hok ⊢
          rcases ih cache hok with ⟨hnep, hcls⟩
          refine ⟨hnep, fun d hd => ?_⟩
          rcases List.mem_cons.mp hd with rfl | hd'
          · exact depClosedIn_of_asset ha
          · exact hcls d hd'
        | Module p =>
          cases hp : processJs p with
          | error e' =>
            have := hJs p
            rw [hp] at this
            cases this
          | ok m =>
            simp only [dependencyLoop, hloc, hcb, ha, hp, Bool.false_eq_true, if_false]
              at hok ⊢
            set c₁ := cacheInsert cache p m with hc₁
            cases ho : (step c₁ m).2 with
            | error e' => exact absurd ho (hne c₁ m e')
            | outOfFuel =>
              rw [ho, if_pos rfl] at hok
              cases hok
            | ok =>
              have hneq : ¬(BuildOutcome.ok = BuildOutcome.outOfFuel) := by
                intro h; cases h
              rw [ho] at hok
              simp only [if_neg hneq] at hok ⊢
              rcases ih (step c₁ m).1 hok with ⟨hnep, hcls⟩
              rcases hcl c₁ m ho with ⟨hnep₁, hproc₁⟩
              have hle₂ : cacheLe (step c₁ m).1
                  (dependencyLoop processJs processPkg step (step c₁ m).1 rest).1 :=
                dependencyLoop_le processJs processPkg step hle rest _
              have hproc_final :
                  processedIn (dependencyLoop processJs processPkg step (step c₁ m).1 rest).1
                    m :=
                processedIn_mono hle₂ hproc₁
              refine ⟨?_, fun d hd => ?_⟩
              · intro L M hM
                rcases hnep L M hM with h₂ | hP
                · rcases hnep₁ L M h₂ with h₁ | hP₁
                  · rw [hc₁] at h₁
                    simp only [cacheInsert] at h₁
                    by_cases hLp : L = p
                    · rw [if_pos hLp] at h₁
                      cases h₁
                      exact .inr hproc_final
                    · rw [if_neg hLp] at h₁
                      exact .inl h₁
                  · exact .inr (processedIn_mono hle₂ hP₁)
                · exact .inr hP
              · rcases List.mem_cons.mp hd with rfl | hd'
                · refine depClosedIn_of_contains hloc ?_
                  have : p = location := asset_location_module hloc ha
                  rw [← this]
                  have hp₁ : (c₁ p).isSome = true := by
                    rw [hc₁, cacheInsert_self]; rfl
                  exact hle₂ p (hle c₁ m p hp₁)
                · exact hcls d hd'
        | Unresolved u =>
          simp only [dependencyLoop, hloc, hcb, ha, Bool.false_eq_true, if_false] at hok ⊢
          rcases ih cache hok with ⟨hnep, hcls⟩
          refine ⟨hnep, fun d hd => ?_⟩
          rcases List.mem_cons.mp hd with rfl | hd'
          · exact depClosedIn_of_unresolved ha
          · exact hcls d hd'

theorem recursively_closure (processJs processPkg : FileProcessor)
    (hJs : ∀ l, (processJs l).isOk = true) (hPkg : ∀ l, (processPkg l).isOk = true) :
    ∀ fuel cache m,
      (recursively_build_dependency_tree processJs processPkg fuel cache m).2 = .ok →
      newEntriesProcessedIn cache
          (recursively_build_dependency_tree processJs processPkg fuel cache m).1 ∧
        processedIn (recursively_build_dependency_tree processJs processPkg fuel cache m).1
          m := by
  intro fuel
  induction fuel with
  | zero => intro cache m h; cases h
  | succ n ih =>
    intro cache m hok
    rw [recursively_build_dependency_tree] at hok ⊢
    exact dependencyLoop_closure processJs processPkg _ hJs hPkg
      (fun c mm => recursively_le processJs processPkg n c mm)
      (fun c mm e => recursively_no_error processJs processPkg hJs hPkg n c mm e)
      (fun c mm h => ih c mm h) m.dependencies cache hok

/-! ### Claim C1 -/

/-- Concrete processors for the C1 counterexample: module `A.js` imports
`X.js` first as a plain module and then as a file inside a node package. -/
def cexJs : FileProcessor := fun l =>
  if l = ["r", "A.js"] then
    .ok ⟨["r", "A.js"], .NormalModule,
      [.Import (.Module ["r", "X.js"]),
       .Import (.NodePackage ["r", "node_modules", "p", "package.json"] ["r", "X.js"])]⟩
  else .ok ⟨l, .NormalModule, []⟩

def cexPkg : FileProcessor := fun l => .ok ⟨l, .NodeModule, []⟩

/-- C1, counterexample: `build_dependency_cache` succeeds, the cached entry
module carries a dependency whose asset is
`NodePackage \x7b package_directory, target_file \x7d`, the `target_file` was
already a cache key (inserted for the preceding `Module` dependency), so the
skip at `lib.rs` line 62 fires and `package_directory` is never inserted:
the location `r/node_modules/p/package.json`, classified `NodePackage`, is
not a key of the final cache. -/
theorem build_cache_closure_cex :
    (build_dependency_cache cexJs cexPkg 4 emptyCache ["r", "A.js"]).2 = .ok ∧
    (build_dependency_cache cexJs cexPkg 4 emptyCache ["r", "A.js"]).1 ["r", "A.js"] =
      some ⟨["r", "A.js"], .NormalModule,
        [.Import (.Module ["r", "X.js"]),
         .Import (.NodePackage ["r", "node_modules", "p", "package.json"] ["r", "X.js"])]⟩ ∧
    (build_dependency_cache cexJs cexPkg 4 emptyCache ["r", "A.js"]).1
      ["r", "node_modules", "p", "package.json"] = none :=
  ⟨by decide, by decide, by decide⟩

/-- C1 (amended): whenever `build_dependency_cache` starting from an empty
cache returns successfully and the two file processors never fail, the cache
is dependency-closed in the sense that for every cached module and every
dependency, a `Module` asset's location and a `NodePackage` asset's
`target_file` are keys of the cache (the `package_directory` of a
`NodePackage` may be missing when its `target_file` was already cached, as
the counterexample shows; `Asset`/`Unresolved` dependencies are exempt). -/
theorem build_cache_closure_amended (processJs processPkg : FileProcessor)
    (hJs : ∀ l, (processJs l).isOk = true) (hPkg : ∀ l, (processPkg l).isOk = true)
    (fuel : Nat) (target : Location)
    (hok : (build_dependency_cache processJs processPkg fuel emptyCache target).2 = .ok) :
    ∀ L M, (build_dependency_cache processJs processPkg fuel emptyCache target).1 L = some M →
      processedIn (build_dependency_cache processJs processPkg fuel emptyCache target).1 M := by
  intro L M hM
  cases hp : processJs target with
  | error e =>
    have := hJs target
    rw [hp] at this
    cases this
  | ok m₀ =>
    simp only [build_dependency_cache, hp] at hok hM ⊢
    rcases recursively_closure processJs processPkg hJs hPkg fuel
      (cacheInsert emptyCache target m₀) m₀ hok with ⟨hnep, hproc⟩
    rcases hnep L M hM with h₁ | hP
    · simp only [cacheInsert, emptyCache] at h₁
      by_cases hL : L = target
      · rw [if_pos hL] at h₁
        cases h₁
        exact hproc
      · rw [if_neg hL] at h₁
        cases h₁
    · exact hP

def witJs : FileProcessor := fun l =>
  if l = ["r", "a.js"] then
    .ok ⟨["r", "a.js"], .NormalModule, [.Import (.Module ["r", "x.js"])]⟩
  else .ok ⟨l, .NormalModule, []⟩

def witPkg : FileProcessor := fun l => .ok ⟨l, .NodeModule, []⟩

/-- Witness for `build_cache_closure_amended` at a concrete two-file run. -/
theorem build_cache_closure_amended_witness :
    ((build_dependency_cache witJs witPkg 3 emptyCache ["r", "a.js"]).1 ["r", "x.js"]).isSome
      = true := by
  have h := build_cache_closure_amended witJs witPkg
    (by intro l; simp only [witJs]; split <;> rfl)
    (fun l => rfl) 3 ["r", "a.js"] (by decide)
    ["r", "a.js"] ⟨["r", "a.js"], .NormalModule, [.Import (.Module ["r", "x.js"])]⟩ (by decide)
  exact (h (.Import (.Module ["r", "x.js"])) (by decide)).1 ["r", "x.js"] rfl

/-! ### Claim C3 -/

/-- C1/C3 helper: for the C3 counterexample, `A.js` imports `B.js`, whose
only dependency is a node package whose descriptor fails to process. -/
def cex3Js : FileProcessor := fun l =>
  if l = ["r", "A.js"] then
    .ok ⟨["r", "A.js"], .NormalModule, [.Import (.Module ["r", "B.js"])]⟩
  else if l = ["r", "B.js"] then
    .ok ⟨["r", "B.js"], .NormalModule,
      [.Import (.NodePackage ["r", "node_modules", "q", "package.json"]
        ["r", "node_modules", "q", "t.js"])]⟩
  else .ok ⟨l, .NormalModule, []⟩

def cex3Pkg : FileProcessor := fun _ => .error "Could not resolve path"

/-- C3, counterexample: the package descriptor of a dependency of the cached
module `B.js` fails to process (depth 2 of the traversal), yet
`build_dependency_cache` returns success: the recursive call's `Result` is
dropped at `lib.rs` line 94, so the typed error never reaches the caller. -/
theorem build_cache_error_swallowed_cex :
    cex3Pkg ["r", "node_modules", "q", "package.json"] = .error "Could not resolve path" ∧
    (build_dependency_cache cex3Js cex3Pkg 5 emptyCache ["r", "A.js"]).1 ["r", "B.js"] =
      some ⟨["r", "B.js"], .NormalModule,
        [.Import (.NodePackage ["r", "node_modules", "q", "package.json"]
          ["r", "node_modules", "q", "t.js"])]⟩ ∧
    (build_dependency_cache cex3Js cex3Pkg 5 emptyCache ["r", "A.js"]).2 = .ok :=
  ⟨rfl, by decide, by decide⟩

/-- C3 (amended): a failure processing the entry file is returned as a typed
error with the pre-existing cache intact; if every direct dependency of the
entry module processes successfully, no error at all is returned (failures
at depth two or deeper are discarded with the dropped recursive `Result`);
and a failure processing the first direct dependency of the entry module is
returned as a typed error with the partially built cache (the entry already
inserted) intact. -/
theorem build_cache_error_propagation_amended :
    (∀ (processJs processPkg : FileProcessor) fuel cache target e,
      processJs target = .error e →
      build_dependency_cache processJs processPkg fuel cache target = (cache, .error e)) ∧
    (∀ (processJs processPkg : FileProcessor) fuel cache target m₀,
      processJs target = .ok m₀ →
      (∀ dep ∈ m₀.dependencies,
        (∀ p, dep.asset = .Module p → (processJs p).isOk = true) ∧
        (∀ pd tf, dep.asset = .NodePackage pd tf → (processPkg pd).isOk = true)) →
      ∀ e, (build_dependency_cache processJs processPkg fuel cache target).2 ≠ .error e) ∧
    (∀ (processJs processPkg : FileProcessor) fuel cache target m₀ dep rest p e,
      processJs target = .ok m₀ →
      m₀.dependencies = dep :: rest →
      dep.asset = .Module p →
      cacheContains (cacheInsert cache target m₀) p = false →
      processJs p = .error e →
      build_dependency_cache processJs processPkg (fuel + 1) cache target =
        (cacheInsert cache target m₀, .error e)) := by
  refine ⟨?_, ?_, ?_⟩
  · intro processJs processPkg fuel cache target e h
    simp [build_dependency_cache, h]
  · intro processJs processPkg fuel cache target m₀ h hdeps e
    cases fuel with
    | zero =>
      simp only [build_dependency_cache, h, recursively_build_dependency_tree]
      intro hx
      cases hx
    | succ n =>
      simp only [build_dependency_cache, h, recursively_build_dependency_tree]
      exact dependencyLoop_no_error processJs processPkg _ m₀.dependencies _ hdeps e
  · intro processJs processPkg fuel cache target m₀ dep rest p e h hdeps ha hcb hp
    have hloc : dep.location = some p := by
      rw [Dependency.location, ha]
      rfl
    simp only [build_dependency_cache, h, recursively_build_dependency_tree, hdeps,
      dependencyLoop, hloc, hcb, ha, hp, Bool.false_eq_true, if_false]

/-- Witness for `build_cache_error_propagation_amended`: applying its first
conjunct to a processor that fails on the entry file. -/
theorem build_cache_error_propagation_amended_witness :
    build_dependency_cache (fun _ => .error "boom") cex3Pkg 3 emptyCache ["r", "A.js"] =
      (emptyCache, .error "boom") :=
  build_cache_error_propagation_amended.1 (fun _ => .error "boom") cex3Pkg 3 emptyCache
    ["r", "A.js"] "boom" rfl

/-! ## Import parser (`parser.rs`, `parser/parsers.rs`)

The nom combinators are embedded over `List Char`; a parser returns
`none` for a nom error and `some (remaining, output)` on success.  Error
payloads are never inspected by the source (`alt` only falls through), so
they are dropped. -/

/-- `Import` from `parser.rs`; payloads are `PathBuf` values. -/
inductive Import where
  | Require (p : UPath)
  | AsyncImport (p : UPath)
  | ExportFrom (p : UPath)
  | Import (p : UPath)
  | NodeDependency (p : UPath)
deriving DecidableEq

def slashChar : Char := Char.ofNat 47
def quoteSingle : Char := Char.ofNat 39
def quoteDouble : Char := Char.ofNat 34
def braceOpen : Char := Char.ofNat 123
def braceClose : Char := Char.ofNat 125

/-- Split a raw string on `/` (the component decomposition that
`PathBuf::from` performs on the matched string literal). -/
def splitOnSlashAux : List Char → List Char → List String
  | [], acc => [String.mk acc.reverse]
  | c :: rest, acc =>
    if c = slashChar then String.mk acc.reverse :: splitOnSlashAux rest []
    else splitOnSlashAux rest (c :: acc)

/-- `PathBuf::from` on the characters of a string literal. -/
def pathBufFromChars (cs : List Char) : UPath :=
  { abs := cs.head? = some slashChar,
    comps := (splitOnSlashAux cs []).filter (fun s => s ≠ "") }

/-- nom `multispace0` whitespace characters. -/
def isWhitespaceChar (c : Char) : Bool :=
  c = ' ' || c = Char.ofNat 9 || c = Char.ofNat 10 || c = Char.ofNat 13

/-- nom `tag`. -/
def ptag (pat : List Char) (input : List Char) : Option (List Char × List Char) :=
  if pat.isPrefixOf input then some (input.drop pat.length, pat) else none

/-- nom `multispace0` (never fails). -/
def multispace0 (input : List Char) : Option (List Char × List Char) :=
  some (input.dropWhile isWhitespaceChar, input.takeWhile isWhitespaceChar)

/-- nom `take_until`: consume up to (excluding) the first occurrence of the
pattern; fail if the pattern never occurs. -/
def takeUntilAux (pat : List Char) : List Char → Option (List Char × List Char)
  | [] => if pat.isPrefixOf ([] : List Char) then some ([], []) else none
  | c :: rest =>
    if pat.isPrefixOf (c :: rest) then some (c :: rest, [])
    else
      match takeUntilAux pat rest with
      | none => none
      | some (rem, taken) => some (rem, c :: taken)

/-- nom `char`. -/
def pchar (c : Char) (input : List Char) : Option (List Char × Char) :=
  match input with
  | [] => none
  | x :: rest => if x = c then some (rest, c) else none

/-- nom `is_not`: the longest nonempty run of characters outside the set. -/
def isNotChars (bad : List Char) (input : List Char) : Option (List Char × List Char) :=
  let taken := input.takeWhile (fun c => !(bad.contains c))
  if taken.isEmpty then none else some (input.drop taken.length, taken)

/-- `delimited(char(q), is_not(q), char(q))` then `PathBuf::from`: one arm of
`path_string` from `parsers.rs`. -/
def quotedPath (q : Char) (input : List Char) : Option (List Char × UPath) :=
  match pchar q input with
  | none => none
  | some (r1, _) =>
    match isNotChars [q] r1 with
    | none => none
    | some (r2, content) =>
      match pchar q r2 with
      | none => none
      | some (r3, _) => some (r3, pathBufFromChars content)

/-- `path_string` from `parsers.rs`. -/
def path_string (input : List Char) : Option (List Char × UPath) :=
  match quotedPath quoteSingle input with
  | some r => some r
  | none => quotedPath quoteDouble input

def importTag : List Char := "import".toList
def exportTag : List Char := "export".toList
def fromTag : List Char := "from".toList
def typeTag : List Char := "type".toList

/-- `\w` of the Rust regex crate, restricted to ASCII input. -/
def isWordChar (c : Char) : Bool := c.isAlphanum || c = '_'

/-- Anchored matcher for the regex from `parsers.rs` line 26, built from its
literal pieces: brace, `\s*`, `type`, `\s+`, `\w+`, `,?`, `\s+`, brace.
Greedy matching is exact here because adjacent character classes are
disjoint. -/
def typeOnlyAt (cs : List Char) : Bool :=
  match cs with
  | [] => false
  | c :: rest =>
    if c ≠ braceOpen then false
    else
      let r1 := rest.dropWhile isWhitespaceChar
      if ¬ (typeTag.isPrefixOf r1) then false
      else
        let r2 := r1.drop 4
        if (r2.takeWhile isWhitespaceChar).isEmpty then false
        else
          let r3 := r2.dropWhile isWhitespaceChar
          if (r3.takeWhile isWordChar).isEmpty then false
          else
            let r4 := r3.dropWhile isWordChar
            let r5 := if r4.head? = some ',' then r4.drop 1 else r4
            if (r5.takeWhile isWhitespaceChar).isEmpty then false
            else (r5.dropWhile isWhitespaceChar).head? = some braceClose

/-- `Regex::is_match` for the type-only pattern: a match starting anywhere. -/
def typeOnlyRegexMatch (cs : List Char) : Bool :=
  (cs.tails).any typeOnlyAt

/-- `parse_import_statement` from `parsers.rs`. -/
def parse_import_statement (module_contents : List Char) : Option (List Char × Import) :=
  match ptag importTag module_contents with
  | none => none
  | some (r0, _) =>
    match multispace0 r0 with
    | none => none
    | some (r1, _) =>
      match takeUntilAux fromTag r1 with
      | none => none
      | some (r2, meat) =>
        match multispace0 r2 with
        | none => none
        | some (r2a, _) =>
          match ptag fromTag r2a with
          | none => none
          | some (r2b, _) =>
            match multispace0 r2b with
            | none => none
            | some (r3, _) =>
              match path_string r3 with
              | none => none
              | some (next, path) =>
                if typeTag.isPrefixOf meat || typeOnlyRegexMatch meat then none
                else some (next, Import.Import path)

/-- `parse_import_promise` from `parsers.rs`. -/
def parse_import_promise (module_contents : List Char) : Option (List Char × Import) :=
  match ptag (importTag ++ ['(']) module_contents with
  | none => none
  | some (r0, _) =>
    match path_string r0 with
    | none => none
    | some (r1, path) =>
      match ptag [')'] r1 with
      | none => none
      | some (r2, _) => some (r2, Import.AsyncImport path)

/-- `parse_require_statement` from `parsers.rs`. -/
def parse_require_statement (module_contents : List Char) : Option (List Char × Import) :=
  match ptag ("require".toList ++ ['(']) module_contents with
  | none => none
  | some (r0, _) =>
    match path_string r0 with
    | none => none
    | some (r1, path) =>
      match ptag [')'] r1 with
      | none => none
      | some (r2, _) => some (r2, Import.Require path)

/-- `parse_export_from` from `parsers.rs`. -/
def parse_export_from (module_contents : List Char) : Option (List Char × Import) :=
  match ptag exportTag module_contents with
  | none => none
  | some (r0, _) =>
    match multispace0 r0 with
    | none => none
    | some (r1, _) =>
      match takeUntilAux fromTag r1 with
      | none => none
      | some (r2, _) =>
        match multispace0 r2 with
        | none => none
        | some (r2a, _) =>
          match ptag fromTag r2a with
          | none => none
          | some (r2b, _) =>
            match multispace0 r2b with
            | none => none
            | some (r3, _) =>
              match path_string r3 with
              | none => none
              | some (next, path) => some (next, Import.ExportFrom path)

/-- `all_possible_import_types` from `parsers.rs` (the `alt`, in source
order). -/
def all_possible_import_types (content : List Char) : Option (List Char × Import) :=
  match parse_require_statement content with
  | some r => some r
  | none =>
    match parse_import_statement content with
    | some r => some r
    | none =>
      match parse_import_promise content with
      | some r => some r
      | none => parse_export_from content

/-- The loop of `UnresolvedImport::parse_many` (`parser.rs` lines 73-87):
try a parse at the current position; on success emit and continue after the
match, otherwise drop one character; stop at the empty string.  Every
successful parse consumes at least one character, so `length + 1` rounds of
fuel always complete the loop. -/
def parseManyAux : Nat → List Char → List Import
  | 0, _ => []
  | fuel + 1, contents =>
    match all_possible_import_types contents with
    | some (remaining, out) => out :: parseManyAux fuel remaining
    | none =>
      match contents with
      | [] => []
      | _ :: rest => parseManyAux fuel rest

/-- `UnresolvedImport::parse_many` from `parser.rs` (it always returns `Ok`,
so the `Result` wrapper is dropped). -/
def parse_many (module_contents : List Char) : List Import :=
  parseManyAux (module_contents.length + 1) module_contents

/-! ### Claim C9 -/

/-- C9: the static-import parser elides type-only imports: whenever the text
captured between `import` and `from` starts with `type` or matches the
type-only regex, `parse_import_statement` produces nothing; and on the S3
input the whole parse produces exactly `[Import("z")]`. -/
theorem parser_type_elision :
    parse_many
        ("import type Foo from \"x\"; import { type T } from \"y\"; import real from \"z\";".toList)
      = [Import.Import ⟨false, ["z"]⟩] ∧
    (∀ input r0 w0 r2 meat,
      ptag importTag input = some (r0, w0) →
      takeUntilAux fromTag (r0.dropWhile isWhitespaceChar) = some (r2, meat) →
      (typeTag.isPrefixOf meat || typeOnlyRegexMatch meat) = true →
      parse_import_statement input = none) := by
  constructor
  · decide
  · intro input r0 w0 r2 meat h0 h2 hflag
    simp only [parse_import_statement, h0, multispace0, h2]
    cases hf : ptag fromTag (r2.dropWhile isWhitespaceChar) with
    | none => rfl
    | some pr =>
      rcases pr with ⟨r2b, w⟩
      simp only [hf, multispace0]
      cases hp : path_string (r2b.dropWhile isWhitespaceChar) with
      | none => rfl
      | some pr2 =>
        rcases pr2 with ⟨next, path⟩
        simp only [hp, hflag, if_true]

/-- Witness for the general conjunct of `parser_type_elision`: the
flagged import statement of S3 parses to nothing. -/
theorem parser_type_elision_witness :
    parse_import_statement ("import type Foo from \"x\"".toList) = none :=
  parser_type_elision.2 ("import type Foo from \"x\"".toList)
    (" type Foo from \"x\"".toList) importTag
    ("from \"x\"".toList) ("type Foo ".toList) (by decide) (by decide) (by decide)

/-! ## Filesystem model and resolver (`resolve.rs`, with
`process_package_json` from `file.rs`)

The filesystem snapshot is explicit: a set of file paths, a set of directory
paths, and the parsed contents of the readable `package.json` descriptors
(a syntactically invalid descriptor would panic at the `unwrap` in
`file.rs` line 166 and is outside this model).  All stored paths are
normalized; `Path::join` resolves `.` and `..` eagerly, so
`Path::canonicalize` inside `Location::new` is an existence check. -/

/-- The `package.json` fields consulted by `file.rs`/`resolve.rs`:
`module`, `main`, and the `dependencies` object (key plus
`Value::as_str()` of the value, in serde_json's sorted key order). -/
structure PkgDescr where
  moduleField : Option String
  mainField : Option String
  dependencies : List (String × Option String)

/-- A filesystem snapshot. -/
structure FS where
  files : List Location
  dirs : List Location
  pkg : Location → Option PkgDescr

def FS.isFile (fs : FS) (p : List String) : Bool := fs.files.contains p

def FS.isDir (fs : FS) (p : List String) : Bool := fs.dirs.contains p

def FS.pathExists (fs : FS) (p : List String) : Bool := fs.isFile p || fs.isDir p

/-- `Path::join` of an absolute base with raw components, resolving `.` and
`..` as the operating system does when the joined path is consulted. -/
def pjoin (base : List String) : List String → List String
  | [] => base
  | c :: rest =>
    if c = "." then pjoin base rest
    else if c = ".." then pjoin base.dropLast rest
    else pjoin (base ++ [c]) rest

/-- `Path::join` with a `PathBuf` value (an absolute right operand replaces
the base, as in Rust). -/
def pjoinU (base : List String) (u : UPath) : List String :=
  if u.abs then pjoin [] u.comps else pjoin base u.comps

/-- `Location::new` (`module.rs`): canonicalization fails exactly when the
path does not exist on the snapshot. -/
def locationNew (fs : FS) (p : List String) : Option Location :=
  if fs.pathExists p then some p else none

/-- `pathdiff::diff_paths` (`Location::make_relative_to`) for two absolute
normalized paths: strip the common prefix, then one `..` per remaining root
component.  It is total on such inputs. -/
def diffPaths : List String → List String → RelativePath
  | p, [] => p
  | [], _ :: rootRest => List.replicate (rootRest.length + 1) ".."
  | c :: pRest, r :: rootRest =>
    if c = r then diffPaths pRest rootRest
    else List.replicate (rootRest.length + 1) ".." ++ (c :: pRest)

def groupPathsAux (l : List String) : Nat → List (List String)
  | 0 => []
  | k + 1 => l.take k :: groupPathsAux l k

/-- The successive `PathBuf::pop` results produced by the `GroupPaths`
iterator of `analysis.rs`: all proper prefixes, innermost first, down to
and including the empty relative path. -/
def groupPathsList (l : List String) : List (List String) := groupPathsAux l l.length

/-- `Path::ancestors`: the path and all its prefixes, ending at the root. -/
def ancestors (p : List String) : List (List String) := p :: groupPathsList p

/-- `Path::extension` of a single component (`None` when there is no dot or
only a leading dot). -/
def compExtension (s : String) : Option String :=
  let cs := s.toList
  let after := cs.reverse.takeWhile (fun c => c ≠ '.')
  if after.length = cs.length then none
  else if after.length + 1 = cs.length then none
  else some (String.mk after.reverse)

/-- `Path::extension` of a path: the extension of its last component. -/
def pathExtension (p : List String) : Option String :=
  match p.getLast? with
  | none => none
  | some s => compExtension s

/-- `Path::with_extension`: replace (or append) the extension of the last
component. -/
def withExtension (p : List String) (ext : String) : List String :=
  match p.getLast? with
  | none => p
  | some last =>
    let cs := last.toList
    let after := cs.reverse.takeWhile (fun c => c ≠ '.')
    let stem :=
      if after.length = cs.length then cs
      else if after.length + 1 = cs.length then cs
      else (cs.reverse.drop (after.length + 1)).reverse
    p.dropLast ++ [String.mk stem ++ "." ++ ext]

/-- `Resolver` from `resolve.rs`.  `extensions` is a `HashSet` in the
source; its per-instance iteration order is part of the configuration and
is made explicit as a list here (default insertion order `jsx js ts tsx`). -/
structure Resolver where
  recursively_resolve_node_modules : Bool
  resolve_root : Location
  extensions : List String
  included_directories : List (List String)

/-- `SearchSpace` from `resolve.rs`. -/
inductive SearchSpace where
  | NodeModule (p : List String)
  | RelativePath (p : List String)
  | IncludedPath (p : List String)
deriving DecidableEq

/-- The `Deref` impl of `SearchSpace`. -/
def SearchSpace.path : SearchSpace → List String
  | .NodeModule p => p
  | .RelativePath p => p
  | .IncludedPath p => p

/-- `Import::as_ref` (the payload path; `UnresolvedImport` is a transparent
newtype over `Import` and is identified with it). -/
def Import.path : Chungus.Import → UPath
  | .Require p => p
  | .AsyncImport p => p
  | .ExportFrom p => p
  | .Import p => p
  | .NodeDependency p => p

/-- The ancestor walk of `find_closest_package_json`. -/
def findClosestAux (fs : FS) : List (List String) → Option Location
  | [] => none
  | anc :: rest =>
    match locationNew fs (anc ++ ["package.json"]) with
    | some loc => some loc
    | none => findClosestAux fs rest

/-- `find_closest_package_json` from `resolve.rs`. -/
def find_closest_package_json (fs : FS) (path : List String) : Option Location :=
  findClosestAux fs (ancestors path)

/-- The final `match` of `resolve_asset`: tag the asset with the import
flavor. -/
def wrapImportKind (u : Import) (a : Asset) : Dependency :=
  match u with
  | .Require _ => .Require a
  | .AsyncImport _ => .AsyncImport a
  | .ExportFrom _ => .Import a
  | .Import _ => .Import a
  | .NodeDependency _ => .Import a

/-- `resolve_package_json_dependencies` from `resolve.rs`, with the mutual
call to `resolve_asset` abstracted as `resolveStep`. -/
def resolve_package_json_dependencies (resolveStep : Location → Import → Dependency)
    (cfg : Resolver) (package_json_location : Location) (value : PkgDescr) :
    List Dependency :=
  if cfg.recursively_resolve_node_modules then
    value.dependencies.map (fun kv =>
      let unresolved :=
        match kv.2 with
        | some v =>
          if ("file:".toList).isPrefixOf v.toList then
            Import.NodeDependency (pathBufFromChars ((v.replace "file:" "").toList))
          else Import.NodeDependency (pathBufFromChars kv.1.toList)
        | none => Import.NodeDependency (pathBufFromChars kv.1.toList)
      resolveStep package_json_location unresolved)
  else []

/-- `process_package_json` from `file.rs`. -/
def process_package_json (resolveStep : Location → Import → Dependency)
    (fs : FS) (cfg : Resolver) (package_json_location : Location) : Except String Module :=
  match fs.pkg package_json_location with
  | none => .error "io"
  | some value =>
    let main_file := (value.moduleField.orElse (fun _ => value.mainField)).getD "index.js"
    match locationNew fs
        (pjoinU package_json_location.dropLast (pathBufFromChars main_file.toList)) with
    | none => .error "Could not resolve path"
    | some main_file_path =>
      .ok { kind := .NodeModule,
            dependencies :=
              resolve_package_json_dependencies resolveStep cfg package_json_location value,
            location := main_file_path }

/-- The `index.<ext>` probe loop shared by both arms of
`resolve_directory`. -/
def indexProbeLoop (fs : FS) (path : List String) : List String → Option (List String)
  | [] => none
  | ext :: rest =>
    let file_path := path ++ ["index." ++ ext]
    if fs.pathExists file_path then some file_path
    else indexProbeLoop fs path rest

/-- `resolve_directory` from `resolve.rs`. -/
def resolve_directory (resolveStep : Location → Import → Dependency)
    (fs : FS) (cfg : Resolver) (ss : SearchSpace) : Option Asset :=
  if ¬ fs.isDir ss.path then none
  else
    match ss with
    | .NodeModule path =>
      match find_closest_package_json fs path with
      | some package_json_file =>
        let location := ss.path
        let main_location :=
          (process_package_json resolveStep fs cfg package_json_file).toOption.map
            Module.location
        let file_in_directory :=
          if path ≠ package_json_file.dropLast then indexProbeLoop fs path cfg.extensions
          else none
        some (.NodePackage package_json_file
          ((file_in_directory.orElse (fun _ => main_location)).getD location))
      | none => none
    | .RelativePath path =>
      (indexProbeLoop fs path cfg.extensions).map (fun f => .Module f)
    | .IncludedPath path =>
      (indexProbeLoop fs path cfg.extensions).map (fun f => .Module f)

/-- The extension probe loop of `resolve_file`: when the probed file exists
but a node-module candidate has no reachable `package.json`, the loop
continues with the next extension (the `if let` falls through). -/
def resolveFileExtLoop (fs : FS) (ss : SearchSpace) : List String → Option Asset
  | [] => none
  | ext :: rest =>
    let file := withExtension ss.path ext
    if fs.pathExists file then
      match ss with
      | .NodeModule path =>
        match find_closest_package_json fs path with
        | some package_json => some (.NodePackage package_json file)
        | none => resolveFileExtLoop fs ss rest
      | .RelativePath _ => some (.Module file)
      | .IncludedPath _ => some (.Module file)
    else resolveFileExtLoop fs ss rest

/-- `resolve_file` from `resolve.rs`. -/
def resolve_file (fs : FS) (cfg : Resolver) (ss : SearchSpace) : Option Asset :=
  if fs.isFile ss.path && !(cfg.extensions.contains ((pathExtension ss.path).getD "")) then
    some (.Asset ss.path)
  else resolveFileExtLoop fs ss cfg.extensions

/-- `create_search_space` from `resolve.rs`, as the list the boxed iterator
yields. -/
def create_search_space (fs : FS) (cfg : Resolver) (location : Location)
    (target_path : Import) : List SearchSpace :=
  let t := target_path.path
  if t.abs then [SearchSpace.RelativePath (pjoin [] t.comps)]
  else
    (if fs.isFile location then
      SearchSpace.RelativePath (pjoin location.dropLast t.comps)
    else SearchSpace.RelativePath (pjoin location t.comps))
    :: SearchSpace.RelativePath (pjoin cfg.resolve_root t.comps)
    :: (cfg.included_directories.map (fun c =>
          SearchSpace.IncludedPath (pjoin (pjoin cfg.resolve_root c) t.comps)))
    ++ ((ancestors location).drop 1).map (fun anc =>
          SearchSpace.NodeModule (pjoin (anc ++ ["node_modules"]) t.comps))

/-- The candidate loop of `resolve_asset`: try file resolution then
directory resolution; first success wins. -/
def searchLoop (resolveDir : SearchSpace → Option Asset) (fs : FS) (cfg : Resolver) :
    List SearchSpace → Option Asset
  | [] => none
  | path :: rest =>
    match resolve_file fs cfg path with
    | some asset => some asset
    | none =>
      match resolveDir path with
      | some asset => some asset
      | none => searchLoop resolveDir fs cfg rest

/-- `resolve_asset` from `resolve.rs`.  Fuel bounds the mutual recursion
through `resolve_package_json_dependencies`, which is only exercised when
`recursively_resolve_node_modules` is on; at exhausted fuel the model
degrades to `Unresolved` exactly as a failed resolution would. -/
def resolve_asset (fs : FS) (cfg : Resolver) :
    Nat → Location → Import → Dependency
  | 0, _, unresolved_dependency =>
    wrapImportKind unresolved_dependency (.Unresolved unresolved_dependency.path)
  | fuel + 1, location, unresolved_dependency =>
    let search_space := create_search_space fs cfg location unresolved_dependency
    let output_asset :=
      (searchLoop (resolve_directory (resolve_asset fs cfg fuel) fs cfg) fs cfg
        search_space).getD (.Unresolved unresolved_dependency.path)
    wrapImportKind unresolved_dependency output_asset

/-- `resolve_normal_module` from `resolve.rs`. -/
def resolve_normal_module (fs : FS) (cfg : Resolver) (fuel : Nat) (location : Location)
    (dependencies : List Import) : Module :=
  { kind := .NormalModule,
    dependencies := dependencies.map (resolve_asset fs cfg fuel location),
    location := location }

/-! ### Claims C6 and C7 -/

/-- Scenario S5: `babel-polyfill` vendored under `<root>/node_modules` with
`main = lib/index.js`. -/
def s5bp : Location := ["root", "node_modules", "babel-polyfill"]

def s5fs : FS :=
  { files := [["root", "src", "a.js"], s5bp ++ ["package.json"], s5bp ++ ["lib", "index.js"]],
    dirs := [[], ["root"], ["root", "src"], ["root", "node_modules"], s5bp, s5bp ++ ["lib"]],
    pkg := fun l =>
      if l = s5bp ++ ["package.json"] then
        some { moduleField := none, mainField := some "lib/index.js", dependencies := [] }
      else none }

def s5cfg : Resolver :=
  { recursively_resolve_node_modules := false, resolve_root := ["root"],
    extensions := ["jsx", "js", "ts", "tsx"], included_directories := [] }

/-- C6: for a fixed filesystem snapshot and resolver configuration (which
fixes the extension iteration order of the `HashSet` instance),
`resolve_asset` is deterministic: two runs on the same referring location
and specifier yield the same `Dependency`. -/
theorem resolve_asset_deterministic (fs : FS) (cfg : Resolver) (fuel : Nat)
    (location : Location) (u : Import) (d₁ d₂ : Dependency)
    (h₁ : resolve_asset fs cfg fuel location u = d₁)
    (h₂ : resolve_asset fs cfg fuel location u = d₂) : d₁ = d₂ :=
  h₁ ▸ h₂ ▸ rfl

/-- Witness for `resolve_asset_deterministic` on the concrete S5 run. -/
theorem resolve_asset_deterministic_witness :
    (Dependency.Import (Asset.NodePackage (s5bp ++ ["package.json"])
        (s5bp ++ ["lib", "index.js"]))) =
      Dependency.Import (Asset.NodePackage (s5bp ++ ["package.json"])
        (s5bp ++ ["lib", "index.js"])) :=
  resolve_asset_deterministic s5fs s5cfg 1 ["root", "src", "a.js"]
    (.Import ⟨false, ["babel-polyfill"]⟩) _ _ (by decide) (by decide)

/-- C7, counterexample: in the S5 scenario, the `package_directory` field of
the produced `NodePackage` is the location of the `package.json` file
itself, not the directory containing it. -/
theorem node_package_directory_cex :
    resolve_asset s5fs s5cfg 1 ["root", "src", "a.js"] (.Import ⟨false, ["babel-polyfill"]⟩) =
      .Import (.NodePackage (s5bp ++ ["package.json"]) (s5bp ++ ["lib", "index.js"])) ∧
    s5bp ++ ["package.json"] ≠ s5bp :=
  ⟨by decide, by decide⟩

theorem wrapImportKind_asset (u : Import) (a : Asset) : (wrapImportKind u a).asset = a := by
  cases u <;> rfl

theorem findClosestAux_last (fs : FS) :
    ∀ ancs pj, findClosestAux fs ancs = some pj → pj.getLast? = some "package.json" := by
  intro ancs
  induction ancs with
  | nil => intro pj h; cases h
  | cons anc rest ih =>
    intro pj h
    simp only [findClosestAux] at h
    cases hl : locationNew fs (anc ++ ["package.json"]) with
    | none =>
      rw [hl] at h
      exact ih pj h
    | some loc =>
      rw [hl] at h
      injection h with h
      subst h
      simp only [locationNew] at hl
      split at hl
      · injection hl with hl
        rw [← hl]
        exact List.getLast?_concat _
      · cases hl

theorem resolveFileExtLoop_nodePackage (fs : FS) (ss : SearchSpace) :
    ∀ exts pd tf, resolveFileExtLoop fs ss exts = some (.NodePackage pd tf) →
      pd.getLast? = some "package.json" := by
  intro exts
  induction exts with
  | nil => intro pd tf h; cases h
  | cons ext rest ih =>
    intro pd tf h
    simp only [resolveFileExtLoop] at h
    cases he : fs.pathExists (withExtension ss.path ext) with
    | false =>
      rw [he] at h
      simp only [Bool.false_eq_true, if_false] at h
      exact ih pd tf h
    | true =>
      rw [he] at h
      simp only [if_true] at h
      cases ss with
      | NodeModule path =>
        cases hf : find_closest_package_json fs path with
        | none =>
          simp only [hf] at h
          exact ih pd tf h
        | some pj =>
          simp only [hf] at h
          injection h with h
          injection h with h1 h2
          exact h1 ▸ findClosestAux_last fs (ancestors path) pj hf
      | RelativePath path => simp at h
      | IncludedPath path => simp at h

theorem resolve_file_nodePackage (fs : FS) (cfg : Resolver) (ss : SearchSpace) :
    ∀ pd tf, resolve_file fs cfg ss = some (.NodePackage pd tf) →
      pd.getLast? = some "package.json" := by
  intro pd tf h
  simp only [resolve_file] at h
  split at h
  · simp at h
  · exact resolveFileExtLoop_nodePackage fs ss cfg.extensions pd tf h

theorem resolve_directory_nodePackage (resolveStep : Location → Import → Dependency)
    (fs : FS) (cfg : Resolver) (ss : SearchSpace) :
    ∀ pd tf, resolve_directory resolveStep fs cfg ss = some (.NodePackage pd tf) →
      pd.getLast? = some "package.json" := by
  intro pd tf h
  simp only [resolve_directory] at h
  split at h
  · cases h
  · cases ss with
    | NodeModule path =>
      cases hf : find_closest_package_json fs path with
      | none =>
        simp only [hf] at h
        cases h
      | some pj =>
        simp only [hf, Option.some.injEq] at h
        injection h with h1 h2
        exact h1 ▸ findClosestAux_last fs (ancestors path) pj hf
    | RelativePath path =>
      cases hp : indexProbeLoop fs path cfg.extensions <;> simp [hp] at h
    | IncludedPath path =>
      cases hp : indexProbeLoop fs path cfg.extensions <;> simp [hp] at h

theorem searchLoop_nodePackage (resolveDir : SearchSpace → Option Asset)
    (fs : FS) (cfg : Resolver)
    (hdir : ∀ ss pd tf, resolveDir ss = some (.NodePackage pd tf) →
      pd.getLast? = some "package.json") :
    ∀ space pd tf, searchLoop resolveDir fs cfg space = some (.NodePackage pd tf) →
      pd.getLast? = some "package.json" := by
  intro space
  induction space with
  | nil => intro pd tf h; cases h
  | cons ss rest ih =>
    intro pd tf h
    simp only [searchLoop] at h
    cases hfile : resolve_file fs cfg ss with
    | some a =>
      rw [hfile] at h
      injection h with h
      subst h
      exact resolve_file_nodePackage fs cfg ss pd tf hfile
    | none =>
      rw [hfile] at h
      cases hd : resolveDir ss with
      | some a =>
        rw [hd] at h
        injection h with h
        subst h
        exact hdir ss pd tf hd
      | none =>
        rw [hd] at h
        exact ih pd tf h

/-- Every `NodePackage` asset produced by resolution carries as
`package_directory` a descriptor-file location: a path whose last component
is `package.json`, found by the ancestor walk. -/
theorem resolve_asset_nodePackage (fs : FS) (cfg : Resolver) :
    ∀ fuel location u pd tf,
      (resolve_asset fs cfg fuel location u).asset = .NodePackage pd tf →
      pd.getLast? = some "package.json" := by
  intro fuel
  cases fuel with
  | zero =>
    intro location u pd tf h
    rw [resolve_asset, wrapImportKind_asset] at h
    cases h
  | succ n =>
    intro location u pd tf h
    rw [resolve_asset, wrapImportKind_asset] at h
    cases hs : searchLoop (resolve_directory (resolve_asset fs cfg n) fs cfg) fs cfg
        (create_search_space fs cfg location u) with
    | none =>
      rw [hs] at h
      cases h
    | some a =>
      rw [hs] at h
      simp only [Option.getD_some] at h
      subst h
      exact searchLoop_nodePackage (resolve_directory (resolve_asset fs cfg n) fs cfg) fs cfg
        (fun ss pd' tf' hd =>
          resolve_directory_nodePackage (resolve_asset fs cfg n) fs cfg ss pd' tf' hd)
        (create_search_space fs cfg location u) pd tf hs

/-- C7 (amended): the `package_directory` of every `NodePackage` produced by
resolution is the location of the `package.json` descriptor file itself
(its last path component is `package.json`), not the directory containing
that file; `target_file` is the file actually imported, and the S5 scenario
resolves exactly as the specification states it. -/
theorem node_package_directory_amended :
    (∀ fs cfg fuel location u pd tf,
      (resolve_asset fs cfg fuel location u).asset = .NodePackage pd tf →
      pd.getLast? = some "package.json") ∧
    resolve_asset s5fs s5cfg 1 ["root", "src", "a.js"] (.Import ⟨false, ["babel-polyfill"]⟩) =
      .Import (.NodePackage (s5bp ++ ["package.json"]) (s5bp ++ ["lib", "index.js"])) :=
  ⟨fun fs cfg fuel location u pd tf h =>
    resolve_asset_nodePackage fs cfg fuel location u pd tf h, by decide⟩

/-- Witness for `node_package_directory_amended` on the concrete S5 run. -/
theorem node_package_directory_amended_witness :
    (["root", "node_modules", "babel-polyfill", "package.json"] : Location).getLast? =
      some "package.json" :=
  node_package_directory_amended.1 s5fs s5cfg 1 ["root", "src", "a.js"]
    (.Import ⟨false, ["babel-polyfill"]⟩)
    ["root", "node_modules", "babel-polyfill", "package.json"]
    ["root", "node_modules", "babel-polyfill", "lib", "index.js"] (by decide)

/-! ## Bundler report ingestion (`webpack_report.rs`, module `v4`) -/

/-- The output `Chunk` of `webpack_report.rs`. -/
structure Chunk where
  id : Nat
  name : String
  initial : Bool
  parents : List Nat
  siblings : List Nat
  children : List Nat
  parsed_size : Nat
deriving DecidableEq

/-- `v4::Chunk`, the raw deserialized chunk. -/
structure RawChunk where
  entry : Bool
  children : List Nat
  initial : Bool
  parents : List Nat
  siblings : List Nat
  id : Nat
  size : Nat
  names : List String
deriving DecidableEq

/-- `v4::Module`, the raw deserialized module (possibly composite). -/
inductive RawModule where
  | mk (id : Option Nat) (name : String) (chunks : List Nat)
       (modules : Option (List RawModule))

def RawModule.name : RawModule → String
  | .mk _ n _ _ => n

def RawModule.chunks : RawModule → List Nat
  | .mk _ _ cs _ => cs

def RawModule.modules : RawModule → Option (List RawModule)
  | .mk _ _ _ ms => ms

/-- The chunk overwrite `child_module.chunks = module.chunks.clone()`. -/
def RawModule.withChunks : RawModule → List Nat → RawModule
  | .mk i n _ ms, cs => .mk i n cs ms

/-- `v4::WebpackReportRaw`, the raw deserialized document. -/
inductive WebpackReportRaw where
  | mk (modules : Option (List RawModule)) (chunks : Option (List RawChunk))
       (children : Option (List WebpackReportRaw))

def WebpackReportRaw.modulesField : WebpackReportRaw → Option (List RawModule)
  | .mk ms _ _ => ms

def WebpackReportRaw.chunksField : WebpackReportRaw → Option (List RawChunk)
  | .mk _ cs _ => cs

def WebpackReportRaw.childrenField : WebpackReportRaw → Option (List WebpackReportRaw)
  | .mk _ _ ch => ch

/-- `WebpackReport` from `webpack_report.rs`. -/
structure WebpackReport where
  chunk_mapping : Location → Option (List Chunk)
  chunk_id_map : Nat → Option Chunk

/-- Outcome of report ingestion.  `error` is the typed `CoreError` path
(`serde_json::from_reader?` and `Location::new(path)?`); `assertionFailed`
is the `assert!` panic with its message; `unwrapFailed` is the
`chunk_map.get(id).unwrap()` panic. -/
inductive IngestResult where
  | ok (r : WebpackReport)
  | error (msg : String)
  | assertionFailed (msg : String)
  | unwrapFailed
  | outOfFuel

/-- Substring test used by the module-name filters. -/
def containsSub (needle hay : List Char) : Bool :=
  hay.tails.any (fun t => needle.isPrefixOf t)

/-- The elision filter of the worklist: skip names containing
` (ignored)` or ` sync `, or starting with `external `. -/
def moduleNameSkip (name : String) : Bool :=
  containsSub (" (ignored)".toList) name.toList ||
  containsSub (" sync ".toList) name.toList ||
  ("external ".toList).isPrefixOf name.toList

/-- The loader-prefix normalization `Regex::new(".+!").replace_all(name, "")`:
everything up to and including the last `!` is removed. -/
def stripLoaderPrefix (cs : List Char) : List Char :=
  if cs.contains '!' then (cs.reverse.takeWhile (fun c => c ≠ '!')).reverse else cs

/-- `module.chunks.iter().map(|id| chunk_map.get(id).unwrap())`: `none`
models the `unwrap` panic on an unknown chunk id. -/
def lookupChunks (chunk_map : Nat → Option Chunk) : List Nat → Option (List Chunk)
  | [] => some []
  | id :: rest =>
    match chunk_map id with
    | none => none
    | some c => (lookupChunks chunk_map rest).map (fun l => c :: l)

/-- Result of the module worklist loop. -/
inductive MappingLoopResult where
  | ok (mapping : Location → Option (List Chunk))
  | error (msg : String)
  | unwrapFailed
  | outOfFuel

/-- The module worklist (`webpack_report.rs` lines 130-167): pop from the
back of the `Vec`, skip filtered names, flatten composite modules by
pushing their children (with the parent's chunks) onto the back, and record
leaf modules in the location map. -/
def moduleQueueLoop (fs : FS) (cfg : Resolver) (chunk_map : Nat → Option Chunk) :
    Nat → (Location → Option (List Chunk)) → List RawModule → MappingLoopResult
  | 0, _, _ => .outOfFuel
  | fuel + 1, mapping, queue =>
    match queue.getLast? with
    | none => .ok mapping
    | some m =>
      let queue' := queue.dropLast
      if moduleNameSkip m.name then
        moduleQueueLoop fs cfg chunk_map fuel mapping queue'
      else
        match m.modules with
        | some child_modules =>
          moduleQueueLoop fs cfg chunk_map fuel mapping
            (queue' ++ child_modules.map (fun c => c.withChunks m.chunks))
        | none =>
          let path := pjoinU cfg.resolve_root
            (pathBufFromChars (stripLoaderPrefix m.name.toList))
          match locationNew fs path with
          | none => .error "Could not resolve path"
          | some location =>
            match lookupChunks chunk_map m.chunks with
            | none => .unwrapFailed
            | some chunks =>
              moduleQueueLoop fs cfg chunk_map fuel
                (fun l =>
                  if l = location then some ((mapping location).getD [] ++ chunks)
                  else mapping l)
                queue'

/-- Insertion of one sub-report's chunks into the shared `chunk_map`. -/
def insertChunks (chunk_map : Nat → Option Chunk) : List RawChunk → Nat → Option Chunk
  | [] => chunk_map
  | ch :: rest =>
    insertChunks
      (fun id =>
        if id = ch.id then
          some { id := ch.id, siblings := ch.siblings, initial := ch.initial,
                 parents := ch.parents, children := ch.children,
                 name := String.intercalate ", " ch.names, parsed_size := ch.size }
        else chunk_map id)
      rest

/-- The per-sub-report loop of `parse_from_reader`: assert both arrays,
ingest the chunks, then run the module worklist. -/
def subReportLoop (fs : FS) (cfg : Resolver) (fuel : Nat) :
    (Location → Option (List Chunk)) → (Nat → Option Chunk) →
    List WebpackReportRaw → IngestResult
  | mapping, chunk_map, [] => .ok { chunk_mapping := mapping, chunk_id_map := chunk_map }
  | mapping, chunk_map, wr :: rest =>
    match wr.chunksField with
    | none => .assertionFailed "No chunk map defintion found in report"
    | some chunks =>
      match wr.modulesField with
      | none => .assertionFailed "No module definitions found in report"
      | some modules =>
        let chunk_map := insertChunks chunk_map chunks
        match moduleQueueLoop fs cfg chunk_map fuel mapping modules with
        | .ok mapping => subReportLoop fs cfg fuel mapping chunk_map rest
        | .error e => .error e
        | .unwrapFailed => .unwrapFailed
        | .outOfFuel => .outOfFuel

/-- `children`-normalization: one sub-report per bundler configuration. -/
def normalizedReports (raw : WebpackReportRaw) : List WebpackReportRaw :=
  match raw.childrenField with
  | some children => children
  | none => [raw]

/-- `WebpackReportRaw::parse_from_reader`.  The input models the result of
`serde_json::from_reader`: a typed error for a syntactically invalid
document, or the deserialized raw report. -/
def parse_from_reader (fs : FS) (cfg : Resolver) (fuel : Nat)
    (input : Except String WebpackReportRaw) : IngestResult :=
  match input with
  | .error e => .error e
  | .ok raw =>
    subReportLoop fs cfg fuel (fun _ => none) (fun _ => none) (normalizedReports raw)

/-- `create_report_from_reader` from `webpack_report.rs` (delegates). -/
def create_report_from_reader (fs : FS) (cfg : Resolver) (fuel : Nat)
    (input : Except String WebpackReportRaw) : IngestResult :=
  parse_from_reader fs cfg fuel input

/-! ### Claim C5 -/

/-- C5, counterexample: a sub-report with a `modules` array but no `chunks`
array makes ingestion hit the `assert!` at `webpack_report.rs` line 103 — a
panic carrying an assertion message, not a typed `ParseError` returned to
the caller. -/
theorem report_missing_arrays_cex :
    parse_from_reader s5fs s5cfg 10 (.ok (.mk (some []) none none)) =
      .assertionFailed "No chunk map defintion found in report" ∧
    ∀ e, parse_from_reader s5fs s5cfg 10 (.ok (.mk (some []) none none)) ≠ .error e := by
  constructor
  · rfl
  · intro e h
    have heq : parse_from_reader s5fs s5cfg 10 (.ok (.mk (some []) none none)) =
        .assertionFailed "No chunk map defintion found in report" := rfl
    rw [heq] at h
    cases h

/-- C5 (amended): a syntactically invalid document is returned as a typed
error, but a sub-report missing `chunks` or `modules` makes ingestion abort
with an assertion panic (shown for the first sub-report, which is the first
one examined), never with a typed `ParseError`. -/
theorem report_missing_arrays_amended :
    (∀ fs cfg fuel e,
      parse_from_reader fs cfg fuel (.error e) = .error e) ∧
    (∀ fs cfg fuel raw wr rest,
      normalizedReports raw = wr :: rest →
      wr.chunksField = none →
      parse_from_reader fs cfg fuel (.ok raw) =
        .assertionFailed "No chunk map defintion found in report") ∧
    (∀ fs cfg fuel raw wr rest chunks,
      normalizedReports raw = wr :: rest →
      wr.chunksField = some chunks →
      wr.modulesField = none →
      parse_from_reader fs cfg fuel (.ok raw) =
        .assertionFailed "No module definitions found in report") := by
  refine ⟨fun fs cfg fuel e => rfl, ?_, ?_⟩
  · intro fs cfg fuel raw wr rest hn hc
    simp only [parse_from_reader, hn, subReportLoop, hc]
  · intro fs cfg fuel raw wr rest chunks hn hc hm
    simp only [parse_from_reader, hn, subReportLoop, hc, hm]

/-- Witness for `report_missing_arrays_amended`: a sub-report with chunks
but no modules panics at the second assertion. -/
theorem report_missing_arrays_amended_witness :
    parse_from_reader s5fs s5cfg 5 (.ok (.mk none (some []) none)) =
      .assertionFailed "No module definitions found in report" :=
  report_missing_arrays_amended.2.2 s5fs s5cfg 5 (.mk none (some []) none)
    (.mk none (some []) none) [] [] rfl rfl rfl

/-! ## Analysis graph (`analysis.rs`)

The source wraps every node in `Arc<RwLock<...>>`; the queue and the
`entrypoint` field alias entries of `all_nodes`, and `analysis_group_map`
indexes `analysis_groups`.  The embedding replaces the shared cells by
indices into the two arrays, which is exactly the arena strategy the spec
describes in §9; the queue holds indices, its head being the top of the
Rust `Vec` stack.  The `file_tree` field built at the end of
`create_from_cache` is the out-of-scope UI navigation structure (spec §2,
§3) and reads nothing the claims mention; it is omitted. -/

/-- `AnalysisNode` from `analysis.rs`. -/
structure AnalysisNode where
  identifier : String
  stem : Option (List String)
  full_path : Location
  is_node_module : Bool
  depth : Nat
  inclusions : List Nat
  immediate_children : List Nat
  tree_shaken : Bool
  chunk : Option Nat
  resolver_relative_path : RelativePath
  incoming : List Nat
  outgoing : List Nat
deriving DecidableEq

/-- `Path::to_string_lossy` for identifiers (never inspected by claims). -/
def pathToString (p : List String) : String := String.intercalate "/" ("" :: p)

/-- `HashSet<usize>::insert`: sets of indices are duplicate-free lists. -/
def setInsert (l : List Nat) (x : Nat) : List Nat := if l.contains x then l else l ++ [x]

/-- `components().rev().take(1).collect::<PathBuf>()`: the stem. -/
def lastComponent (p : List String) : List String :=
  match p.getLast? with
  | none => []
  | some s => [s]

/-- `RelativePath::make_from_path` (`module.rs`): the relative path is valid
when joining the root with it hits an existing entry. -/
def make_from_path (fs : FS) (path : List String) (root : Location) :
    Except String RelativePath :=
  if fs.pathExists (pjoin root path) then .ok path else .error "Cannot make relative path"

/-- The mutable state of `Analysis::populate`. -/
structure PopulateState where
  node_map : Location → Option Nat
  analysis_groups : List AnalysisNode
  analysis_group_map : RelativePath × Option Nat → Option Nat
  all_nodes : List AnalysisNode
  queue : List Nat

/-- Failures of graph population: a propagated `CoreError` (`?`), or one of
the `unwrap`s on the internal invariants. -/
inductive PopulateError where
  | coreError (msg : String)
  | unwrapPanic

/-- The loop of `analysis.rs` lines 392-401: attach `own_index` to the
incoming set of every group containing the target node. -/
def groupIncomingLoop (fs : FS) (root : Location) (i : Nat) (chunk : Option Nat) :
    PopulateState → List (List String) → Except PopulateError PopulateState
  | s, [] => .ok s
  | s, gp :: rest =>
    match make_from_path fs gp root with
    | .error e => .error (.coreError e)
    | .ok relative_path =>
      match s.analysis_group_map (relative_path, chunk) with
      | none => .error .unwrapPanic
      | some gi =>
        match s.analysis_groups.get? gi with
        | none => .error .unwrapPanic
        | some g =>
          let g2 := { g with incoming := setInsert g.incoming i }
          groupIncomingLoop fs root i chunk
            { s with analysis_groups := s.analysis_groups.set gi g2 } rest

/-- The loop of `analysis.rs` lines 430-478: push the upcoming node index
into every ancestor group, creating missing groups; the first ancestor
(enumeration index 0) also records an immediate child. -/
def groupInclusionLoop (fs : FS) (root : Location) (newIndex : Nat) (i : Nat)
    (chunk : Option Nat) :
    PopulateState → Nat → List (List String) → Except PopulateError PopulateState
  | s, _, [] => .ok s
  | s, gidx, gp :: rest =>
    match make_from_path fs gp root with
    | .error e => .error (.coreError e)
    | .ok relative_path =>
      match s.analysis_group_map (relative_path, chunk) with
      | some gi =>
        match s.analysis_groups.get? gi with
        | none => .error .unwrapPanic
        | some g =>
          let g := { g with inclusions := g.inclusions ++ [newIndex] }
          let g :=
            if gidx = 0 then
              { g with immediate_children := g.immediate_children ++ [newIndex] }
            else g
          groupInclusionLoop fs root newIndex i chunk
            { s with analysis_groups := s.analysis_groups.set gi g } (gidx + 1) rest
      | none =>
        match locationNew fs (pjoin root relative_path) with
        | none => .error (.coreError "Could not resolve path")
        | some location =>
          let g : AnalysisNode :=
            { identifier := pathToString location, stem := none,
              inclusions := [newIndex],
              immediate_children := if gidx = 0 then [newIndex] else [],
              depth := location.length, full_path := location,
              is_node_module := false, tree_shaken := false, chunk := none,
              resolver_relative_path := relative_path,
              incoming := [i], outgoing := [] }
          groupInclusionLoop fs root newIndex i chunk
            { s with
              analysis_groups := s.analysis_groups ++ [g],
              analysis_group_map := fun k =>
                if k = (relative_path, chunk) then some s.analysis_groups.length
                else s.analysis_group_map k }
            (gidx + 1) rest

/-- The loop of `analysis.rs` lines 504-517: union the popped node's
outgoing set into every ancestor group's outgoing set. -/
def groupOutgoingLoop (fs : FS) (root : Location) (chunk : Option Nat)
    (outgoing : List Nat) :
    PopulateState → List (List String) → Except PopulateError PopulateState
  | s, [] => .ok s
  | s, gp :: rest =>
    match make_from_path fs gp root with
    | .error e => .error (.coreError e)
    | .ok location =>
      match s.analysis_group_map (location, chunk) with
      | none => .error .unwrapPanic
      | some gi =>
        match s.analysis_groups.get? gi with
        | none => .error .unwrapPanic
        | some g =>
          let g2 := { g with outgoing := outgoing.foldl setInsert g.outgoing }
          groupOutgoingLoop fs root chunk outgoing
            { s with analysis_groups := s.analysis_groups.set gi g2 } rest

/-- `analysis.rs` lines 381-403: the dependency already has a node. -/
def attachToExistingTarget (fs : FS) (root : Location) (s : PopulateState)
    (i tIdx : Nat) : Except PopulateError PopulateState :=
  match s.all_nodes.get? tIdx with
  | none => .error .unwrapPanic
  | some target0 =>
    let target1 := { target0 with incoming := setInsert target0.incoming i }
    groupIncomingLoop fs root i target0.chunk
      { s with all_nodes := s.all_nodes.set tIdx target1 }
      (groupPathsList target0.resolver_relative_path)

/-- One dependency of the popped node (`analysis.rs` lines 362-486),
threading the state and the `outgoing` accumulator. -/
def processDependency (fs : FS) (root : Location) (cache : DependencyCache) (i : Nat) :
    PopulateState × List Nat → Location → Except PopulateError (PopulateState × List Nat)
  | (s, outgoing), dependency =>
    let is_node_module :=
      match cache dependency with
      | some m => (match m.kind with | .NodeModule => true | .NormalModule => false)
      | none => false
    match (s.node_map dependency).bind (fun t => (s.all_nodes.get? t).map (fun _ => t)) with
    | some tIdx =>
      match attachToExistingTarget fs root s i tIdx with
      | .error e => .error e
      | .ok s => .ok (s, setInsert outgoing tIdx)
    | none =>
      let rel := diffPaths dependency root
      let n := s.all_nodes.length
      let newNode : AnalysisNode :=
        { identifier := pathToString dependency,
          immediate_children := [], inclusions := [],
          tree_shaken := false, chunk := none,
          is_node_module := is_node_module,
          depth := dependency.length,
          stem := some (lastComponent dependency),
          resolver_relative_path := rel,
          outgoing := [], incoming := [i],
          full_path := dependency }
      match groupInclusionLoop fs root n i newNode.chunk s 0 (groupPathsList rel) with
      | .error e => .error e
      | .ok s =>
        .ok ({ s with
                all_nodes := s.all_nodes ++ [newNode],
                node_map := fun l => if l = dependency then some n else s.node_map l,
                queue := n :: s.queue },
             setInsert outgoing n)

/-- The dependency `for`-loop of one pop. -/
def dependencyFold (fs : FS) (root : Location) (cache : DependencyCache) (i : Nat) :
    PopulateState × List Nat → List Location →
    Except PopulateError (PopulateState × List Nat)
  | acc, [] => .ok acc
  | acc, d :: rest =>
    match processDependency fs root cache i acc d with
    | .error e => .error e
    | .ok acc => dependencyFold fs root cache i acc rest

/-- `analysis.rs` lines 488-518: write the popped node's outgoing set and
stem, then union the outgoing set into its ancestor groups. -/
def finalizeNode (fs : FS) (root : Location) (s : PopulateState) (i : Nat)
    (outgoing : List Nat) : Except PopulateError PopulateState :=
  match s.all_nodes.get? i with
  | none => .error .unwrapPanic
  | some node =>
    let node1 :=
      { node with outgoing := outgoing, stem := some (lastComponent node.full_path) }
    groupOutgoingLoop fs root node.chunk outgoing
      { s with all_nodes := s.all_nodes.set i node1 }
      (groupPathsList node.resolver_relative_path)

/-- One iteration of the `while` loop of `populate`: pop an index, look up
its cached module (absent: warn and skip), process its dependencies and
finalize. -/
def popStep (fs : FS) (root : Location) (cache : DependencyCache) (s : PopulateState)
    (i : Nat) (queueRest : List Nat) : Except PopulateError PopulateState :=
  let s := { s with queue := queueRest }
  match s.all_nodes.get? i with
  | none => .error .unwrapPanic
  | some node =>
    match cache node.full_path with
    | none => .ok s
    | some module =>
      match dependencyFold fs root cache i (s, [])
          (module.dependencies.filterMap Dependency.location) with
      | .error e => .error e
      | .ok (s, outgoing) => finalizeNode fs root s i outgoing

/-- Result of `populate` / `create_from_cache`. -/
inductive PopResult where
  | ok (s : PopulateState)
  | error (e : PopulateError)
  | outOfFuel

/-- The `while !queue.is_empty()` loop of `populate`. -/
def populateLoop (fs : FS) (root : Location) (cache : DependencyCache) :
    Nat → PopulateState → PopResult
  | fuel, s =>
    match s.queue with
    | [] => .ok s
    | i :: rest =>
      match fuel with
      | 0 => .outOfFuel
      | fuel + 1 =>
        match popStep fs root cache s i rest with
        | .error e => .error e
        | .ok s => populateLoop fs root cache fuel s

/-- The group-seeding loop of `create_from_cache` (`analysis.rs` lines
135-168), walking the entry's ancestors outward. -/
def seedGroups (fs : FS) (root : Location) (chunk : Option Nat) :
    List AnalysisNode → (RelativePath × Option Nat → Option Nat) → Nat →
    List (List String) →
    Except PopulateError (List AnalysisNode × (RelativePath × Option Nat → Option Nat))
  | groups, gmap, _, [] => .ok (groups, gmap)
  | groups, gmap, index, gp :: rest =>
    match make_from_path fs gp root with
    | .error e => .error (.coreError e)
    | .ok location =>
      match locationNew fs (pjoin root location) with
      | none => .error (.coreError "Could not resolve path")
      | some full_path =>
        let g : AnalysisNode :=
          { identifier := pathToString full_path, chunk := chunk,
            inclusions := [0],
            immediate_children := if index = 0 then [0] else [],
            tree_shaken := false, stem := none,
            resolver_relative_path := location, is_node_module := false,
            depth := full_path.length, full_path := full_path,
            incoming := [], outgoing := [] }
        seedGroups fs root chunk (groups ++ [g])
          (fun k => if k = (location, chunk) then some groups.length else gmap k)
          (index + 1) rest

/-- `Analysis::create_from_cache` (`analysis.rs` lines 111-211), without
the out-of-scope `file_tree` construction. -/
def create_from_cache (fs : FS) (cfg : Resolver) (cache : DependencyCache)
    (entrypoint : Location) (fuel : Nat) : PopResult :=
  let resolver_relative_path := diffPaths entrypoint cfg.resolve_root
  let root_node : AnalysisNode :=
    { identifier := pathToString entrypoint, inclusions := [], immediate_children := [],
      depth := entrypoint.length, chunk := none, tree_shaken := false, stem := none,
      resolver_relative_path := resolver_relative_path, is_node_module := false,
      full_path := entrypoint, incoming := [], outgoing := [] }
  match seedGroups fs cfg.resolve_root root_node.chunk [] (fun _ => none) 0
      (groupPathsList resolver_relative_path) with
  | .error e => .error e
  | .ok (groups, gmap) =>
    populateLoop fs cfg.resolve_root cache fuel
      { node_map := fun l => if l = entrypoint then some 0 else none,
        analysis_groups := groups, analysis_group_map := gmap,
        all_nodes := [root_node], queue := [0] }

/-- `Analysis` from `analysis.rs` (the fields augmentation reads and
writes; `entrypoint` is the alias of `all_nodes[0]`). -/
structure Analysis where
  node_map : Location → Option Nat
  analysis_groups : List AnalysisNode
  analysis_group_map : RelativePath × Option Nat → Option Nat
  all_nodes : List AnalysisNode
  chunks : Nat → Option Chunk

def PopulateState.toAnalysis (s : PopulateState) : Analysis :=
  { node_map := s.node_map, analysis_groups := s.analysis_groups,
    analysis_group_map := s.analysis_group_map, all_nodes := s.all_nodes,
    chunks := fun _ => none }

/-- The abort causes of `augment_with_webpack_report`: the two head
`unwrap`s (`analysis.rs` lines 224-231) and the per-inclusion
`all_nodes.get(*c).unwrap()` (line 259). -/
inductive AugmentAbort where
  | entryChunkMissing
  | chunkPreferenceMissing
  | nodeIndexInvalid
deriving DecidableEq

inductive AugResult where
  | ok (a : Analysis)
  | aborted (p : AugmentAbort)

/-- The inner loop of augmentation (`analysis.rs` lines 255-306): classify
each file node of a group's inclusions, collecting the identified chunk
ids. -/
def augmentInclusionLoop (report : WebpackReport) (relevant : List Nat) :
    List AnalysisNode × List Nat → List Nat →
    Except AugmentAbort (List AnalysisNode × List Nat)
  | acc, [] => .ok acc
  | (nodes, identified), c :: cs =>
    match nodes.get? c with
    | none => .error .nodeIndexInvalid
    | some node =>
      match node.chunk with
      | some chunkVal =>
        augmentInclusionLoop report relevant (nodes, setInsert identified chunkVal) cs
      | none =>
        match report.chunk_mapping node.full_path with
        | none =>
          let node1 := { node with tree_shaken := true }
          augmentInclusionLoop report relevant (nodes.set c node1, identified) cs
        | some chunks =>
          match chunks.find? (fun ch => relevant.contains ch.id) with
          | none =>
            let node1 := { node with tree_shaken := true }
            augmentInclusionLoop report relevant (nodes.set c node1, identified) cs
          | some ch =>
            let ident1 := node.identifier ++ "?c=" ++ toString ch.id
            let node1 := { node with chunk := some ch.id, identifier := ident1 }
            augmentInclusionLoop report relevant
              (nodes.set c node1, setInsert identified ch.id) cs

/-- The group loop of augmentation (`analysis.rs` lines 253-315): after the
inner loop, assign the group the first identified chunk and clone it once
per further identified chunk. -/
def augmentGroupLoop (report : WebpackReport) (relevant : List Nat) :
    List AnalysisNode × List AnalysisNode × List AnalysisNode → List Nat →
    Except AugmentAbort (List AnalysisNode × List AnalysisNode × List AnalysisNode)
  | st, [] => .ok st
  | (nodes, groups, extra), gi :: gis =>
    match groups.get? gi with
    | none => .error .nodeIndexInvalid
    | some g =>
      match augmentInclusionLoop report relevant (nodes, []) g.inclusions with
      | .error e => .error e
      | .ok (nodes, identified) =>
        let g1 := { g with chunk := identified.head? }
        let clones := (identified.drop 1).map (fun cid => { g1 with chunk := some cid })
        augmentGroupLoop report relevant (nodes, groups.set gi g1, extra ++ clones) gis

/-- `Analysis::augment_with_webpack_report` (`analysis.rs` lines 214-328).
The entry node is `all_nodes[0]` (the `entrypoint` alias). -/
def augment_with_webpack_report (a : Analysis) (report : WebpackReport)
    (entrypoint_chunk_preference : Nat) : AugResult :=
  match a.all_nodes.get? 0 with
  | none => .aborted .nodeIndexInvalid
  | some entry =>
    match report.chunk_mapping entry.full_path with
    | none => .aborted .entryChunkMissing
    | some chunks_in_entrypoint =>
      match chunks_in_entrypoint.get? entrypoint_chunk_preference with
      | none => .aborted .chunkPreferenceMissing
      | some chunk =>
        let entrypoint_chunk_children :=
          setInsert ((chunk.children ++ chunk.siblings).foldl setInsert []) chunk.id
        match augmentGroupLoop report entrypoint_chunk_children
            (a.all_nodes, a.analysis_groups, []) (List.range a.analysis_groups.length) with
        | .error e => .aborted e
        | .ok (nodes, groups, extra) =>
          .ok { a with
                all_nodes := nodes,
                analysis_groups := groups ++ extra,
                chunks := fun id =>
                  if entrypoint_chunk_children.contains id then report.chunk_id_map id
                  else none }

/-! ### Claim C8 -/

/-- Scenario S6: entry `<root>/a/b/c.js` importing `<root>/a/b/d.js` and
`<root>/a/e.js`. -/
def s6fs : FS :=
  { files := [["root", "a", "b", "c.js"], ["root", "a", "b", "d.js"], ["root", "a", "e.js"]],
    dirs := [[], ["root"], ["root", "a"], ["root", "a", "b"]],
    pkg := fun _ => none }

def s6cfg : Resolver :=
  { recursively_resolve_node_modules := false, resolve_root := ["root"],
    extensions := ["js"], included_directories := [] }

def s6cache : DependencyCache := fun l =>
  if l = ["root", "a", "b", "c.js"] then
    some ⟨["root", "a", "b", "c.js"], .NormalModule,
      [.Import (.Module ["root", "a", "b", "d.js"]),
       .Import (.Module ["root", "a", "e.js"])]⟩
  else if l = ["root", "a", "b", "d.js"] then
    some ⟨["root", "a", "b", "d.js"], .NormalModule, []⟩
  else if l = ["root", "a", "e.js"] then
    some ⟨["root", "a", "e.js"], .NormalModule, []⟩
  else none

/-- C8: on scenario S6, `create_from_cache` produces the group `a/b` with
inclusions and immediate children exactly the nodes of `c.js` (index 0) and
`d.js` (index 1), and the group `a` with inclusions exactly `c.js`, `d.js`
and `e.js` (index 2) and immediate children exactly `e.js`. -/
theorem graph_groups_s6 :
    ∃ s, create_from_cache s6fs s6cfg s6cache ["root", "a", "b", "c.js"] 10 = .ok s ∧
      s.node_map ["root", "a", "b", "c.js"] = some 0 ∧
      s.node_map ["root", "a", "b", "d.js"] = some 1 ∧
      s.node_map ["root", "a", "e.js"] = some 2 ∧
      s.analysis_group_map (["a", "b"], none) = some 0 ∧
      s.analysis_group_map (["a"], none) = some 1 ∧
      (s.analysis_groups.get? 0).map AnalysisNode.inclusions = some [0, 1] ∧
      (s.analysis_groups.get? 0).map AnalysisNode.immediate_children = some [0, 1] ∧
      (s.analysis_groups.get? 1).map AnalysisNode.inclusions = some [0, 1, 2] ∧
      (s.analysis_groups.get? 1).map AnalysisNode.immediate_children = some [2] := by
  refine ⟨_, rfl, ?_, ?_, ?_, ?_, ?_, ?_, ?_, ?_, ?_⟩ <;> decide

/-! ### Claim C10 -/

theorem augmentInclusionLoop_err (report : WebpackReport) (relevant : List Nat) :
    ∀ cs st e, augmentInclusionLoop report relevant st cs = .error e →
      e = .nodeIndexInvalid := by
  intro cs
  induction cs with
  | nil => intro st e h; cases h
  | cons c rest ih =>
    intro st e h
    rcases st with ⟨nodes, identified⟩
    simp only [augmentInclusionLoop] at h
    cases hn : nodes.get? c with
    | none =>
      simp only [hn] at h
      injection h with h
      exact h.symm
    | some node =>
      simp only [hn] at h
      cases hc : node.chunk with
      | some v =>
        simp only [hc] at h
        exact ih _ e h
      | none =>
        simp only [hc] at h
        cases hm : report.chunk_mapping node.full_path with
        | none =>
          simp only [hm] at h
          exact ih _ e h
        | some chunks =>
          simp only [hm] at h
          cases hf : chunks.find? (fun ch => relevant.contains ch.id) with
          | none =>
            simp only [hf] at h
            exact ih _ e h
          | some ch =>
            simp only [hf] at h
            exact ih _ e h

theorem augmentGroupLoop_err (report : WebpackReport) (relevant : List Nat) :
    ∀ gis st e, augmentGroupLoop report relevant st gis = .error e →
      e = .nodeIndexInvalid := by
  intro gis
  induction gis with
  | nil => intro st e h; cases h
  | cons gi rest ih =>
    intro st e h
    rcases st with ⟨nodes, groups, extra⟩
    simp only [augmentGroupLoop] at h
    cases hg : groups.get? gi with
    | none =>
      simp only [hg] at h
      injection h with h
      exact h.symm
    | some g =>
      simp only [hg] at h
      cases hi : augmentInclusionLoop report relevant (nodes, []) g.inclusions with
      | error e' =>
        simp only [hi] at h
        injection h with h
        exact h ▸ augmentInclusionLoop_err report relevant g.inclusions (nodes, []) e' hi
      | ok pr =>
        simp only [hi] at h
        rcases pr with ⟨nodes', identified⟩
        exact ih _ e h

/-- C10: `augment_with_webpack_report` panics on its two head `unwrap`s
exactly when the precondition fails: if the entry node's `full_path` is not
a key of `chunk_mapping` or the preference is not a valid index into the
entry's chunk list it aborts at one of those unwraps, and under the
precondition neither of those two abort branches can be the outcome. -/
theorem augment_unwrap_precondition (a : Analysis) (entry : AnalysisNode)
    (h0 : a.all_nodes.get? 0 = some entry) (report : WebpackReport) (pref : Nat) :
    ((augment_with_webpack_report a report pref = .aborted .entryChunkMissing ∨
      augment_with_webpack_report a report pref = .aborted .chunkPreferenceMissing) ↔
      ¬ ∃ lst, report.chunk_mapping entry.full_path = some lst ∧ pref < lst.length) := by
  cases hm : report.chunk_mapping entry.full_path with
  | none =>
    simp only [augment_with_webpack_report, h0, hm]
    constructor
    · rintro _ ⟨lst, hl, _⟩
      cases hl
    · intro _
      exact .inl trivial
  | some lst =>
    cases hp : lst.get? pref with
    | none =>
      simp only [augment_with_webpack_report, h0, hm, hp]
      constructor
      · rintro _ ⟨lst', hl, hlt⟩
        injection hl with hl
        subst hl
        rw [List.get?_eq_none] at hp
        exact absurd hlt (Nat.not_lt.mpr hp)
      · intro _
        exact .inr trivial
    | some chunk =>
      simp only [augment_with_webpack_report, h0, hm, hp]
      constructor
      · intro h
        rcases h with h | h <;>
        · cases hloop : augmentGroupLoop report
              (setInsert ((chunk.children ++ chunk.siblings).foldl setInsert []) chunk.id)
              (a.all_nodes, a.analysis_groups, []) (List.range a.analysis_groups.length) with
          | ok st =>
            rcases st with ⟨n1, g1, e1⟩
            simp only [hloop] at h
            cases h
          | error e =>
            simp only [hloop] at h
            have he := augmentGroupLoop_err report _ _ _ e hloop
            subst he
            injection h with h
            cases h
      · intro hneg
        refine absurd ⟨lst, rfl, ?_⟩ hneg
        rcases List.get?_eq_some.mp hp with ⟨hlt, _⟩
        exact hlt

/-- Witness input for `augment_unwrap_precondition`: a one-node analysis and
a report that does not mention the entry. -/
def w10entry : AnalysisNode :=
  { identifier := "", stem := none, full_path := ["root", "e.js"], is_node_module := false,
    depth := 2, inclusions := [], immediate_children := [], tree_shaken := false,
    chunk := none, resolver_relative_path := ["e.js"], incoming := [], outgoing := [] }

def w10analysis : Analysis :=
  { node_map := fun _ => none, analysis_groups := [], analysis_group_map := fun _ => none,
    all_nodes := [w10entry], chunks := fun _ => none }

def w10report : WebpackReport :=
  { chunk_mapping := fun _ => none, chunk_id_map := fun _ => none }

/-- Witness for `augment_unwrap_precondition`. -/
theorem augment_unwrap_precondition_witness :
    augment_with_webpack_report w10analysis w10report 0 = .aborted .entryChunkMissing ∨
    augment_with_webpack_report w10analysis w10report 0 = .aborted .chunkPreferenceMissing :=
  (augment_unwrap_precondition w10analysis w10entry rfl w10report 0).mpr
    (by rintro ⟨lst, hl, _⟩; cases hl)

/-! ### Populate invariants (claims C2 and C4) -/

theorem nodesGet_set_self {l : List AnalysisNode} {i : Nat} {a : AnalysisNode}
    (h : i < l.length) : (l.set i a).get? i = some a := by
  simp [List.get?_eq_getElem?, List.getElem?_set_self', List.getElem?_eq_getElem h]

theorem nodesGet_set_ne {l : List AnalysisNode} {i j : Nat} (a : AnalysisNode)
    (h : i ≠ j) : (l.set i a).get? j = l.get? j := by
  simp [List.get?_eq_getElem?, List.getElem?_set_ne h]

theorem nodesGet_append_left {l l' : List AnalysisNode} {n : Nat} (h : n < l.length) :
    (l ++ l').get? n = l.get? n := by
  simp [List.get?_eq_getElem?, List.getElem?_append_left h]

theorem nodesGet_append_length {l : List AnalysisNode} (a : AnalysisNode) :
    (l ++ [a]).get? l.length = some a := by
  simp [List.get?_eq_getElem?]

theorem nodesGet_lt {l : List AnalysisNode} {i : Nat} {x : AnalysisNode}
    (h : l.get? i = some x) : i < l.length := by
  rw [List.get?_eq_getElem?] at h
  exact (List.getElem?_eq_some.mp h).1

theorem nodesGet_ge {l : List AnalysisNode} {i : Nat} (h : l.length ≤ i) :
    l.get? i = none := by
  simp [List.get?_eq_getElem?, List.getElem?_eq_none h]

/-- Index `x` is listed in the inclusions of some group. -/
def Covers (groups : List AnalysisNode) (x : Nat) : Prop :=
  ∃ gi g, groups.get? gi = some g ∧ x ∈ g.inclusions

theorem covers_set {groups : List AnalysisNode} {gi : Nat} {g g2 : AnalysisNode}
    (hg : groups.get? gi = some g) (hinc : ∀ x ∈ g.inclusions, x ∈ g2.inclusions) :
    ∀ x, Covers groups x → Covers (groups.set gi g2) x := by
  rintro x ⟨gj, gw, hgw, hx⟩
  by_cases he : gi = gj
  · subst he
    rw [hg] at hgw
    injection hgw with hgw
    subst hgw
    exact ⟨gi, g2, nodesGet_set_self (nodesGet_lt hg), hinc x hx⟩
  · exact ⟨gj, gw, by rw [nodesGet_set_ne g2 he]; exact hgw, hx⟩

theorem covers_append (groups gs : List AnalysisNode) :
    ∀ x, Covers groups x → Covers (groups ++ gs) x := by
  rintro x ⟨gj, gw, hgw, hx⟩
  exact ⟨gj, gw, by rw [nodesGet_append_left (nodesGet_lt hgw)]; exact hgw, hx⟩

/-- Frame facts of `groupIncomingLoop`: it touches only group incoming
sets. -/
theorem groupIncomingLoop_frame (fs : FS) (root : Location) (i : Nat)
    (chunk : Option Nat) :
    ∀ gps s s', groupIncomingLoop fs root i chunk s gps = .ok s' →
      s'.all_nodes = s.all_nodes ∧ s'.queue = s.queue ∧ s'.node_map = s.node_map ∧
      (∀ x, Covers s.analysis_groups x → Covers s'.analysis_groups x) := by
  intro gps
  induction gps with
  | nil =>
    intro s s' h
    injection h with h
    subst h
    exact ⟨rfl, rfl, rfl, fun x hx => hx⟩
  | cons gp rest ih =>
    intro s s' h
    simp only [groupIncomingLoop] at h
    cases hmf : make_from_path fs gp root with
    | error e => simp only [hmf] at h; cases h
    | ok relative_path =>
      simp only [hmf] at h
      cases hgm : s.analysis_group_map (relative_path, chunk) with
      | none => simp only [hgm] at h; cases h
      | some gi =>
        simp only [hgm] at h
        cases hg : s.analysis_groups.get? gi with
        | none => simp only [hg] at h; cases h
        | some g =>
          simp only [hg] at h
          rcases ih _ _ h with ⟨h1, h2, h3, h4⟩
          refine ⟨h1, h2, h3, fun x hx => h4 x ?_⟩
          refine covers_set hg ?_ x hx
          intro y hy
          exact hy

/-- Frame facts of `groupOutgoingLoop`. -/
theorem groupOutgoingLoop_frame (fs : FS) (root : Location) (chunk : Option Nat)
    (outgoing : List Nat) :
    ∀ gps s s', groupOutgoingLoop fs root chunk outgoing s gps = .ok s' →
      s'.all_nodes = s.all_nodes ∧ s'.queue = s.queue ∧ s'.node_map = s.node_map ∧
      (∀ x, Covers s.analysis_groups x → Covers s'.analysis_groups x) := by
  intro gps
  induction gps with
  | nil =>
    intro s s' h
    injection h with h
    subst h
    exact ⟨rfl, rfl, rfl, fun x hx => hx⟩
  | cons gp rest ih =>
    intro s s' h
    simp only [groupOutgoingLoop] at h
    cases hmf : make_from_path fs gp root with
    | error e => simp only [hmf] at h; cases h
    | ok location =>
      simp only [hmf] at h
      cases hgm : s.analysis_group_map (location, chunk) with
      | none => simp only [hgm] at h; cases h
      | some gi =>
        simp only [hgm] at h
        cases hg : s.analysis_groups.get? gi with
        | none => simp only [hg] at h; cases h
        | some g =>
          simp only [hg] at h
          rcases ih _ _ h with ⟨h1, h2, h3, h4⟩
          refine ⟨h1, h2, h3, fun x hx => h4 x ?_⟩
          refine covers_set hg ?_ x hx
          intro y hy
          exact hy

/-- Frame facts of `groupInclusionLoop`, plus: a nonempty ancestor list
guarantees the new index ends up in some group's inclusions. -/
theorem groupInclusionLoop_frame (fs : FS) (root : Location) (newIndex i : Nat)
    (chunk : Option Nat) :
    ∀ gps s gidx s', groupInclusionLoop fs root newIndex i chunk s gidx gps = .ok s' →
      s'.all_nodes = s.all_nodes ∧ s'.queue = s.queue ∧ s'.node_map = s.node_map ∧
      (∀ x, Covers s.analysis_groups x → Covers s'.analysis_groups x) ∧
      (gps ≠ [] → Covers s'.analysis_groups newIndex) := by
  intro gps
  induction gps with
  | nil =>
    intro s gidx s' h
    injection h with h
    subst h
    exact ⟨rfl, rfl, rfl, fun x hx => hx, fun hne => absurd rfl hne⟩
  | cons gp rest ih =>
    intro s gidx s' h
    simp only [groupInclusionLoop] at h
    cases hmf : make_from_path fs gp root with
    | error e => simp only [hmf] at h; cases h
    | ok relative_path =>
      simp only [hmf] at h
      cases hgm : s.analysis_group_map (relative_path, chunk) with
      | some gi =>
        simp only [hgm] at h
        cases hg : s.analysis_groups.get? gi with
        | none => simp only [hg] at h; cases h
        | some g =>
          simp only [hg] at h
          by_cases hgidx : gidx = 0
          · rw [if_pos hgidx] at h
            rcases ih _ _ _ h with ⟨h1, h2, h3, h4, _⟩
            refine ⟨h1, h2, h3, ?_, ?_⟩
            · intro x hx
              refine h4 x ?_
              refine covers_set hg ?_ x hx
              intro y hy
              simp [hy]
            · intro _
              refine h4 newIndex ?_
              refine ⟨gi, _, nodesGet_set_self (nodesGet_lt hg), ?_⟩
              simp
          · rw [if_neg hgidx] at h
            rcases ih _ _ _ h with ⟨h1, h2, h3, h4, _⟩
            refine ⟨h1, h2, h3, ?_, ?_⟩
            · intro x hx
              refine h4 x ?_
              refine covers_set hg ?_ x hx
              intro y hy
              simp [hy]
            · intro _
              refine h4 newIndex ?_
              refine ⟨gi, _, nodesGet_set_self (nodesGet_lt hg), ?_⟩
              simp
      | none =>
        simp only [hgm] at h
        cases hln : locationNew fs (pjoin root relative_path) with
        | none => simp only [hln] at h; cases h
        | some location =>
          simp only [hln] at h
          rcases ih _ _ _ h with ⟨h1, h2, h3, h4, _⟩
          refine ⟨h1, h2, h3, ?_, ?_⟩
          · intro x hx
            exact h4 x (covers_append _ _ x hx)
          · intro _
            refine h4 newIndex ⟨s.analysis_groups.length, _, nodesGet_append_length _, ?_⟩
            simp

/-! ### Claim C2: edge-set consistency of `populate` -/

theorem mem_setInsert_iff {l : List Nat} {x y : Nat} :
    y ∈ setInsert l x ↔ y = x ∨ y ∈ l := by
  by_cases hc : l.contains x = true
  · rw [setInsert, if_pos hc]
    have hx : x ∈ l := by simpa using hc
    constructor
    · exact fun h => .inr h
    · rintro (rfl | h)
      · exact hx
      · exact h
  · rw [setInsert, if_neg hc]
    simp [or_comm]

theorem mem_setInsert_self (l : List Nat) (x : Nat) : x ∈ setInsert l x :=
  mem_setInsert_iff.mpr (.inl rfl)

theorem groupPathsList_ne_nil {l : List String} (h : l ≠ []) :
    groupPathsList l ≠ [] := by
  cases l with
  | nil => exact absurd rfl h
  | cons a as =>
    intro hc
    simp [groupPathsList, groupPathsAux] at hc

/-- Edge-set consistency of a node array: `b` is an outgoing edge of `a`
exactly when `a` is an incoming edge of `b`. -/
def EdgeConsistent (nodes : List AnalysisNode) : Prop :=
  ∀ a b na nb, nodes.get? a = some na → nodes.get? b = some nb →
    (b ∈ na.outgoing ↔ a ∈ nb.incoming)

/-- The loop invariant of `populate` between pops. -/
structure PopInv (nodes : List AnalysisNode) (queue : List Nat) : Prop where
  edge : EdgeConsistent nodes
  qOut : ∀ q ∈ queue, ∀ nq, nodes.get? q = some nq → nq.outgoing = []
  qNodup : queue.Nodup
  qBound : ∀ q ∈ queue, q < nodes.length
  inBound : ∀ j nj, nodes.get? j = some nj → ∀ x ∈ nj.incoming, x < nodes.length
  outBound : ∀ j nj, nodes.get? j = some nj → ∀ x ∈ nj.outgoing, x < nodes.length

/-- The invariant inside the dependency fold of one pop of node `i`. -/
structure FoldInv (i : Nat) (nodes : List AnalysisNode) (queue : List Nat)
    (out : List Nat) : Prop where
  f1 : ∀ j nj, nodes.get? j = some nj → (i ∈ nj.incoming ↔ j ∈ out)
  f2 : ∀ a b na nb, a ≠ i → nodes.get? a = some na → nodes.get? b = some nb →
    (b ∈ na.outgoing ↔ a ∈ nb.incoming)
  f3 : i < nodes.length
  f4 : i ∉ queue
  f5 : ∀ q ∈ queue, ∀ nq, nodes.get? q = some nq → nq.outgoing = []
  f6 : queue.Nodup
  f7 : ∀ q ∈ queue, q < nodes.length
  f8 : ∀ j nj, nodes.get? j = some nj → ∀ x ∈ nj.incoming, x < nodes.length
  f9 : ∀ j nj, nodes.get? j = some nj → ∀ x ∈ nj.outgoing, x < nodes.length
  f10 : ∀ x ∈ out, x < nodes.length

theorem popInv_foldInv {nodes : List AnalysisNode} {queue : List Nat} {i : Nat}
    {rest : List Nat} {node : AnalysisNode} (inv : PopInv nodes queue)
    (hq : queue = i :: rest) (hi : nodes.get? i = some node) :
    FoldInv i nodes rest [] := by
  subst hq
  have hiq : i ∈ i :: rest := List.mem_cons_self i rest
  have hout : node.outgoing = [] := inv.qOut i hiq node hi
  refine ⟨?_, ?_, ?_, ?_, ?_, ?_, ?_, inv.inBound, inv.outBound, ?_⟩
  · intro j nj hj
    constructor
    · intro hin
      have hiff := inv.edge i j node nj hi hj
      rw [hout] at hiff
      exact absurd (hiff.mpr hin) (List.not_mem_nil j)
    · intro hin
      cases hin
  · exact fun a b na nb _ ha hb => inv.edge a b na nb ha hb
  · exact inv.qBound i hiq
  · exact fun hmem => (List.nodup_cons.mp inv.qNodup).1 hmem
  · exact fun q hq nq hnq => inv.qOut q (List.mem_cons_of_mem _ hq) nq hnq
  · exact (List.nodup_cons.mp inv.qNodup).2
  · exact fun q hq => inv.qBound q (List.mem_cons_of_mem _ hq)
  · exact fun x hx => absurd hx (List.not_mem_nil x)

theorem foldInv_attach {i : Nat} {nodes : List AnalysisNode} {queue : List Nat}
    {out : List Nat} {tIdx : Nat} {target0 : AnalysisNode}
    (inv : FoldInv i nodes queue out) (ht : nodes.get? tIdx = some target0) :
    FoldInv i (nodes.set tIdx { target0 with incoming := setInsert target0.incoming i })
      queue (setInsert out tIdx) := by
  have htl : tIdx < nodes.length := nodesGet_lt ht
  refine ⟨?_, ?_, ?_, inv.f4, ?_, inv.f6, ?_, ?_, ?_, ?_⟩
  · intro j nj hj
    by_cases hjt : j = tIdx
    · subst hjt
      rw [nodesGet_set_self htl] at hj
      injection hj with hj
      subst hj
      constructor
      · intro _
        exact mem_setInsert_self out j
      · intro _
        exact mem_setInsert_self target0.incoming i
    · rw [nodesGet_set_ne _ (Ne.symm hjt)] at hj
      have hold := inv.f1 j nj hj
      constructor
      · intro hin
        exact mem_setInsert_iff.mpr (.inr (hold.mp hin))
      · intro hin
        rcases mem_setInsert_iff.mp hin with he | hmem
        · exact absurd he hjt
        · exact hold.mpr hmem
  · intro a b na nb hai ha hb
    by_cases hat : a = tIdx
    · subst hat
      rw [nodesGet_set_self htl] at ha
      injection ha with ha
      subst ha
      by_cases hbt : b = a
      · subst hbt
        rw [nodesGet_set_self htl] at hb
        injection hb with hb
        subst hb
        have hold := inv.f2 b b target0 target0 hai ht ht
        constructor
        · intro hx
          exact mem_setInsert_iff.mpr (.inr (hold.mp hx))
        · intro hx
          rcases mem_setInsert_iff.mp hx with he | hmem
          · exact absurd he hai
          · exact hold.mpr hmem
      · rw [nodesGet_set_ne _ (fun he => hbt he.symm)] at hb
        exact inv.f2 a b target0 nb hai ht hb
    · rw [nodesGet_set_ne _ (Ne.symm hat)] at ha
      by_cases hbt : b = tIdx
      · subst hbt
        rw [nodesGet_set_self htl] at hb
        injection hb with hb
        subst hb
        have hold := inv.f2 a b na target0 hai ha ht
        constructor
        · intro hx
          exact mem_setInsert_iff.mpr (.inr (hold.mp hx))
        · intro hx
          rcases mem_setInsert_iff.mp hx with he | hmem
          · exact absurd he hai
          · exact hold.mpr hmem
      · rw [nodesGet_set_ne _ (Ne.symm hbt)] at hb
        exact inv.f2 a b na nb hai ha hb
  · rw [List.length_set]
    exact inv.f3
  · intro q hq nq hnq
    by_cases hqt : q = tIdx
    · subst hqt
      rw [nodesGet_set_self htl] at hnq
      injection hnq with hnq
      subst hnq
      exact inv.f5 q hq target0 ht
    · rw [nodesGet_set_ne _ (Ne.symm hqt)] at hnq
      exact inv.f5 q hq nq hnq
  · intro q hq
    rw [List.length_set]
    exact inv.f7 q hq
  · intro j nj hj x hx
    rw [List.length_set]
    by_cases hjt : j = tIdx
    · subst hjt
      rw [nodesGet_set_self htl] at hj
      injection hj with hj
      subst hj
      rcases mem_setInsert_iff.mp hx with rfl | hmem
      · exact inv.f3
      · exact inv.f8 j target0 ht x hmem
    · rw [nodesGet_set_ne _ (Ne.symm hjt)] at hj
      exact inv.f8 j nj hj x hx
  · intro j nj hj x hx
    rw [List.length_set]
    by_cases hjt : j = tIdx
    · subst hjt
      rw [nodesGet_set_self htl] at hj
      injection hj with hj
      subst hj
      exact inv.f9 j target0 ht x hx
    · rw [nodesGet_set_ne _ (Ne.symm hjt)] at hj
      exact inv.f9 j nj hj x hx
  · intro x hx
    rw [List.length_set]
    rcases mem_setInsert_iff.mp hx with rfl | hmem
    · exact htl
    · exact inv.f10 x hmem

theorem attach_foldInv (fs : FS) (root : Location) {i : Nat} {s : PopulateState}
    {out : List Nat} {tIdx : Nat} {s2 : PopulateState}
    (inv : FoldInv i s.all_nodes s.queue out)
    (h : attachToExistingTarget fs root s i tIdx = .ok s2) :
    FoldInv i s2.all_nodes s2.queue (setInsert out tIdx) := by
  simp only [attachToExistingTarget] at h
  cases ht : s.all_nodes.get? tIdx with
  | none => simp only [ht] at h; cases h
  | some target0 =>
    simp only [ht] at h
    rcases groupIncomingLoop_frame fs root i target0.chunk _ _ _ h with ⟨h1, h2, _, _⟩
    have h1a : s2.all_nodes = s.all_nodes.set tIdx
        { target0 with incoming := setInsert target0.incoming i } := h1
    have h2a : s2.queue = s.queue := h2
    rw [h1a, h2a]
    exact foldInv_attach inv ht

theorem foldInv_append {i : Nat} {nodes nodes2 : List AnalysisNode}
    {queue queue2 : List Nat} {out : List Nat} {n : Nat}
    (inv : FoldInv i nodes queue out) (hn2 : nodes2 = nodes) (hq2 : queue2 = queue)
    (hnn : n = nodes.length) (newNode : AnalysisNode)
    (hin : newNode.incoming = [i]) (hout : newNode.outgoing = []) :
    FoldInv i (nodes2 ++ [newNode]) (n :: queue2) (setInsert out n) := by
  rw [hn2, hq2, hnn]
  have hone : ∀ c nc, (nodes ++ [newNode]).get? c = some nc →
      nodes.get? c = some nc ∨ (c = nodes.length ∧ nc = newNode) := by
    intro c nc hc
    by_cases hcl : c < nodes.length
    · rw [nodesGet_append_left hcl] at hc
      exact .inl hc
    · rcases Nat.lt_or_ge c (nodes ++ [newNode]).length with hlt | hge
      · have hce : c = nodes.length := by
          have hl2 : (nodes ++ [newNode]).length = nodes.length + 1 := by simp
          omega
        subst hce
        rw [nodesGet_append_length] at hc
        injection hc with hc
        exact .inr ⟨rfl, hc.symm⟩
      · rw [nodesGet_ge hge] at hc
        cases hc
  have hlen : (nodes ++ [newNode]).length = nodes.length + 1 := by simp
  refine ⟨?_, ?_, ?_, ?_, ?_, ?_, ?_, ?_, ?_, ?_⟩
  · intro j nj hj
    rcases hone j nj hj with hold | ⟨rfl, rfl⟩
    · have hiff := inv.f1 j nj hold
      have hjl : j < nodes.length := nodesGet_lt hold
      constructor
      · intro hmem
        exact mem_setInsert_iff.mpr (.inr (hiff.mp hmem))
      · intro hmem
        rcases mem_setInsert_iff.mp hmem with he | hm
        · exact absurd (he ▸ hjl) (lt_irrefl _)
        · exact hiff.mpr hm
    · rw [hin]
      constructor
      · intro _
        exact mem_setInsert_self out nodes.length
      · intro _
        exact List.mem_singleton.mpr rfl
  · intro a b na nb hai ha hb
    rcases hone a na ha with hoa | ⟨rfl, rfl⟩
    · rcases hone b nb hb with hob | ⟨rfl, rfl⟩
      · exact inv.f2 a b na nb hai hoa hob
      · rw [hin]
        constructor
        · intro hx
          exact absurd (inv.f9 a na hoa _ hx) (lt_irrefl _)
        · intro hx
          exact absurd (List.mem_singleton.mp hx) hai
    · rw [hout]
      constructor
      · intro hx
        cases hx
      · intro hx
        rcases hone b nb hb with hob | ⟨rfl, rfl⟩
        · exact absurd (inv.f8 b nb hob _ hx) (lt_irrefl _)
        · rw [hin] at hx
          have hni : nodes.length = i := List.mem_singleton.mp hx
          exact absurd hni.symm (Nat.ne_of_lt inv.f3)
  · rw [hlen]
    exact Nat.lt_succ_of_lt inv.f3
  · intro hmem
    rcases List.mem_cons.mp hmem with he | hm
    · exact absurd (he ▸ inv.f3) (lt_irrefl _)
    · exact inv.f4 hm
  · intro q hq nq hnq
    rcases List.mem_cons.mp hq with he | hm
    · rcases hone q nq hnq with hold | ⟨_, rfl⟩
      · exact absurd (he ▸ nodesGet_lt hold) (lt_irrefl _)
      · exact hout
    · have hql : q < nodes.length := inv.f7 q hm
      rcases hone q nq hnq with hold | ⟨he, _⟩
      · exact inv.f5 q hm nq hold
      · exact absurd (he ▸ hql) (lt_irrefl _)
  · refine List.nodup_cons.mpr ⟨?_, inv.f6⟩
    intro hmem
    exact absurd (inv.f7 _ hmem) (lt_irrefl _)
  · intro q hq
    rw [hlen]
    rcases List.mem_cons.mp hq with rfl | hm
    · exact Nat.lt_succ_self _
    · exact Nat.lt_succ_of_lt (inv.f7 q hm)
  · intro j nj hj x hx
    rw [hlen]
    rcases hone j nj hj with hold | ⟨_, rfl⟩
    · exact Nat.lt_succ_of_lt (inv.f8 j nj hold x hx)
    · rw [hin] at hx
      have hxi := List.mem_singleton.mp hx
      rw [hxi]
      exact Nat.lt_succ_of_lt inv.f3
  · intro j nj hj x hx
    rw [hlen]
    rcases hone j nj hj with hold | ⟨_, rfl⟩
    · exact Nat.lt_succ_of_lt (inv.f9 j nj hold x hx)
    · rw [hout] at hx
      cases hx
  · intro x hx
    rw [hlen]
    rcases mem_setInsert_iff.mp hx with rfl | hm
    · exact Nat.lt_succ_self _
    · exact Nat.lt_succ_of_lt (inv.f10 x hm)

theorem processDependency_foldInv (fs : FS) (root : Location)
    (cache : DependencyCache) {i : Nat} {s : PopulateState} {out : List Nat}
    {d : Location} {s2 : PopulateState} {out2 : List Nat}
    (inv : FoldInv i s.all_nodes s.queue out)
    (h : processDependency fs root cache i (s, out) d = .ok (s2, out2)) :
    FoldInv i s2.all_nodes s2.queue out2 := by
  simp only [processDependency] at h
  cases hg : (s.node_map d).bind (fun t => (s.all_nodes.get? t).map (fun _ => t)) with
  | some tIdx =>
    simp only [hg] at h
    cases hat : attachToExistingTarget fs root s i tIdx with
    | error e => simp only [hat] at h; cases h
    | ok s3 =>
      simp only [hat] at h
      injection h with h
      injection h with he1 he2
      subst he1
      subst he2
      exact attach_foldInv fs root inv hat
  | none =>
    simp only [hg] at h
    cases hgi : groupInclusionLoop fs root s.all_nodes.length i none s 0
        (groupPathsList (diffPaths d root)) with
    | error e => simp only [hgi] at h; cases h
    | ok s3 =>
      simp only [hgi] at h
      injection h with h
      injection h with he1 he2
      subst he1
      subst he2
      rcases groupInclusionLoop_frame fs root s.all_nodes.length i none _ _ _ _ hgi with
        ⟨h1, h2, _, _, _⟩
      have h1a : s3.all_nodes = s.all_nodes := h1
      have h2a : s3.queue = s.queue := h2
      exact foldInv_append inv h1a h2a rfl _ rfl rfl

theorem dependencyFold_foldInv (fs : FS) (root : Location)
    (cache : DependencyCache) {i : Nat} :
    ∀ ds (acc acc2 : PopulateState × List Nat),
      FoldInv i acc.1.all_nodes acc.1.queue acc.2 →
      dependencyFold fs root cache i acc ds = .ok acc2 →
      FoldInv i acc2.1.all_nodes acc2.1.queue acc2.2 := by
  intro ds
  induction ds with
  | nil =>
    intro acc acc2 inv h
    simp only [dependencyFold] at h
    injection h with h
    subst h
    exact inv
  | cons d rest ih =>
    intro acc acc2 inv h
    obtain ⟨s0, out0⟩ := acc
    simp only [dependencyFold] at h
    cases hp : processDependency fs root cache i (s0, out0) d with
    | error e => simp only [hp] at h; cases h
    | ok accm =>
      obtain ⟨sm, outm⟩ := accm
      simp only [hp] at h
      exact ih (sm, outm) acc2 (processDependency_foldInv fs root cache inv hp) h

theorem popInv_finalize {i : Nat} {nodes : List AnalysisNode} {queue : List Nat}
    {out : List Nat} {node : AnalysisNode} (inv : FoldInv i nodes queue out)
    (hi : nodes.get? i = some node) (st : Option (List String)) :
    PopInv (nodes.set i { node with outgoing := out, stem := st }) queue := by
  have hil : i < nodes.length := nodesGet_lt hi
  refine ⟨?_, ?_, inv.f6, ?_, ?_, ?_⟩
  · intro a b na nb ha hb
    by_cases hat : a = i
    · subst hat
      rw [nodesGet_set_self hil] at ha
      injection ha with ha
      subst ha
      by_cases hbt : b = a
      · subst hbt
        rw [nodesGet_set_self hil] at hb
        injection hb with hb
        subst hb
        exact (inv.f1 b node hi).symm
      · rw [nodesGet_set_ne _ (fun he => hbt he.symm)] at hb
        exact (inv.f1 b nb hb).symm
    · rw [nodesGet_set_ne _ (Ne.symm hat)] at ha
      by_cases hbt : b = i
      · subst hbt
        rw [nodesGet_set_self hil] at hb
        injection hb with hb
        subst hb
        exact inv.f2 a b na node hat ha hi
      · rw [nodesGet_set_ne _ (Ne.symm hbt)] at hb
        exact inv.f2 a b na nb hat ha hb
  · intro q hq nq hnq
    have hqi : q ≠ i := fun he => inv.f4 (he ▸ hq)
    rw [nodesGet_set_ne _ (Ne.symm hqi)] at hnq
    exact inv.f5 q hq nq hnq
  · intro q hq
    rw [List.length_set]
    exact inv.f7 q hq
  · intro j nj hj x hx
    rw [List.length_set]
    by_cases hjt : j = i
    · subst hjt
      rw [nodesGet_set_self hil] at hj
      injection hj with hj
      subst hj
      exact inv.f8 j node hi x hx
    · rw [nodesGet_set_ne _ (Ne.symm hjt)] at hj
      exact inv.f8 j nj hj x hx
  · intro j nj hj x hx
    rw [List.length_set]
    by_cases hjt : j = i
    · subst hjt
      rw [nodesGet_set_self hil] at hj
      injection hj with hj
      subst hj
      exact inv.f10 x hx
    · rw [nodesGet_set_ne _ (Ne.symm hjt)] at hj
      exact inv.f9 j nj hj x hx

theorem finalize_popInv (fs : FS) (root : Location) {i : Nat} {s : PopulateState}
    {out : List Nat} {s2 : PopulateState}
    (inv : FoldInv i s.all_nodes s.queue out)
    (h : finalizeNode fs root s i out = .ok s2) : PopInv s2.all_nodes s2.queue := by
  simp only [finalizeNode] at h
  cases hi : s.all_nodes.get? i with
  | none => simp only [hi] at h; cases h
  | some node =>
    simp only [hi] at h
    rcases groupOutgoingLoop_frame fs root node.chunk out _ _ _ h with ⟨h1, h2, _, _⟩
    have h1a : s2.all_nodes = s.all_nodes.set i
        { node with outgoing := out, stem := some (lastComponent node.full_path) } := h1
    have h2a : s2.queue = s.queue := h2
    rw [h1a, h2a]
    exact popInv_finalize inv hi _

theorem popStep_popInv (fs : FS) (root : Location) (cache : DependencyCache)
    {s : PopulateState} {i : Nat} {rest : List Nat} {s2 : PopulateState}
    (inv : PopInv s.all_nodes s.queue) (hq : s.queue = i :: rest)
    (h : popStep fs root cache s i rest = .ok s2) : PopInv s2.all_nodes s2.queue := by
  simp only [popStep] at h
  cases hi : s.all_nodes.get? i with
  | none => simp only [hi] at h; cases h
  | some node =>
    simp only [hi] at h
    cases hc : cache node.full_path with
    | none =>
      simp only [hc] at h
      injection h with h
      subst h
      refine ⟨inv.edge, ?_, ?_, ?_, inv.inBound, inv.outBound⟩
      · intro q hq2 nq hnq
        exact inv.qOut q (by rw [hq]; exact List.mem_cons_of_mem _ hq2) nq hnq
      · have hnd := inv.qNodup
        rw [hq] at hnd
        exact hnd.of_cons
      · intro q hq2
        exact inv.qBound q (by rw [hq]; exact List.mem_cons_of_mem _ hq2)
    | some module =>
      simp only [hc] at h
      cases hf : dependencyFold fs root cache i ({ s with queue := rest }, [])
          (module.dependencies.filterMap Dependency.location) with
      | error e => simp only [hf] at h; cases h
      | ok acc =>
        obtain ⟨sm, outm⟩ := acc
        simp only [hf] at h
        have h0 : FoldInv i s.all_nodes rest [] := popInv_foldInv inv hq hi
        have hmid := dependencyFold_foldInv fs root cache _ _ _ h0 hf
        exact finalize_popInv fs root hmid h

theorem populateLoop_popInv (fs : FS) (root : Location) (cache : DependencyCache) :
    ∀ fuel (s s2 : PopulateState), PopInv s.all_nodes s.queue →
      populateLoop fs root cache fuel s = .ok s2 → PopInv s2.all_nodes s2.queue := by
  intro fuel
  induction fuel with
  | zero =>
    intro s s2 inv h
    rw [populateLoop] at h
    cases hq : s.queue with
    | nil =>
      simp only [hq] at h
      injection h with h
      subst h
      exact inv
    | cons i rest =>
      simp only [hq] at h
      cases h
  | succ fuel ih =>
    intro s s2 inv h
    rw [populateLoop] at h
    cases hq : s.queue with
    | nil =>
      simp only [hq] at h
      injection h with h
      subst h
      exact inv
    | cons i rest =>
      simp only [hq] at h
      cases hp : popStep fs root cache s i rest with
      | error e => simp only [hp] at h; cases h
      | ok sm =>
        simp only [hp] at h
        exact ih sm s2 (popStep_popInv fs root cache inv hq hp) h

theorem popInv_singleton (n0 : AnalysisNode) (hin : n0.incoming = [])
    (hout : n0.outgoing = []) : PopInv [n0] [0] := by
  have hone : ∀ c nc, ([n0] : List AnalysisNode).get? c = some nc →
      c = 0 ∧ nc = n0 := by
    intro c nc hc
    cases c with
    | zero =>
      have hc2 : some n0 = some nc := hc
      injection hc2 with hc2
      exact ⟨rfl, hc2.symm⟩
    | succ c =>
      rw [nodesGet_ge (by simp)] at hc
      cases hc
  refine ⟨?_, ?_, ?_, ?_, ?_, ?_⟩
  · intro a b na nb ha hb
    rcases hone a na ha with ⟨rfl, rfl⟩
    rcases hone b nb hb with ⟨rfl, rfl⟩
    rw [hin, hout]
  · intro q hq nq hnq
    rcases hone q nq hnq with ⟨_, rfl⟩
    exact hout
  · decide
  · intro q hq
    have hq0 : q = 0 := List.mem_singleton.mp hq
    rw [hq0]
    exact Nat.zero_lt_one
  · intro j nj hj x hx
    rcases hone j nj hj with ⟨_, rfl⟩
    rw [hin] at hx
    cases hx
  · intro j nj hj x hx
    rcases hone j nj hj with ⟨_, rfl⟩
    rw [hout] at hx
    cases hx

/-- C2: after `create_from_cache` returns successfully, the edge sets of the
file-node array are consistent: for all valid indices `i`, `j` into
`all_nodes`, `j ∈ all_nodes[i].outgoing ↔ i ∈ all_nodes[j].incoming`. -/
theorem populate_edge_consistency (fs : FS) (cfg : Resolver)
    (cache : DependencyCache) (entrypoint : Location) (fuel : Nat)
    (s : PopulateState)
    (h : create_from_cache fs cfg cache entrypoint fuel = .ok s) :
    EdgeConsistent s.all_nodes := by
  simp only [create_from_cache] at h
  split at h
  · cases h
  · exact (populateLoop_popInv fs cfg.resolve_root cache fuel _ s
      (popInv_singleton _ rfl rfl) h).edge

/-- Extract the success state of a `PopResult` (default: the empty state). -/
def PopResult.stateD : PopResult → PopulateState
  | .ok s => s
  | .error _ => ⟨fun _ => none, [], fun _ => none, [], []⟩
  | .outOfFuel => ⟨fun _ => none, [], fun _ => none, [], []⟩

/-- Witness for `populate_edge_consistency`: the S6 run. -/
theorem populate_edge_consistency_witness :
    EdgeConsistent (PopResult.stateD (create_from_cache s6fs s6cfg s6cache
      ["root", "a", "b", "c.js"] 10)).all_nodes :=
  populate_edge_consistency s6fs s6cfg s6cache ["root", "a", "b", "c.js"] 10 _ rfl

/-! ### Claim C4: chunk-or-tree-shaken totality of augmentation -/

/-- A file node is settled by augmentation: tree-shaken or carrying a
chunk. -/
def NodeDone (n : AnalysisNode) : Prop :=
  n.tree_shaken = true ∨ n.chunk.isSome = true

/-- Every node index is listed in some group's inclusions. -/
def CoverInv (nodes groups : List AnalysisNode) : Prop :=
  ∀ j, j < nodes.length → Covers groups j

theorem coverInv_extend {nodes nodes2 groups groups2 : List AnalysisNode}
    (hcov : CoverInv nodes groups) (hn2 : nodes2 = nodes)
    (hpres : ∀ x, Covers groups x → Covers groups2 x)
    (hnew : Covers groups2 nodes.length) (newNode : AnalysisNode) :
    CoverInv (nodes2 ++ [newNode]) groups2 := by
  rw [hn2]
  intro j hj
  have hj2 : j < nodes.length + 1 := by simpa using hj
  rcases Nat.lt_succ_iff_lt_or_eq.mp hj2 with hl | he
  · exact hpres j (hcov j hl)
  · rw [he]
    exact hnew

theorem seedGroups_covers (fs : FS) (root : Location) (chunk : Option Nat) :
    ∀ gps groups gmap idx res,
      seedGroups fs root chunk groups gmap idx gps = .ok res →
      (∀ x, Covers groups x → Covers res.1 x) ∧ (gps ≠ [] → Covers res.1 0) := by
  intro gps
  induction gps with
  | nil =>
    intro groups gmap idx res h
    simp only [seedGroups] at h
    injection h with h
    subst h
    exact ⟨fun x hx => hx, fun hne => absurd rfl hne⟩
  | cons gp rest ih =>
    intro groups gmap idx res h
    simp only [seedGroups] at h
    cases hmf : make_from_path fs gp root with
    | error e => simp only [hmf] at h; cases h
    | ok location =>
      simp only [hmf] at h
      cases hln : locationNew fs (pjoin root location) with
      | none => simp only [hln] at h; cases h
      | some full_path =>
        simp only [hln] at h
        rcases ih _ _ _ _ h with ⟨ih1, _⟩
        constructor
        · intro x hx
          exact ih1 x (covers_append _ _ x hx)
        · intro _
          refine ih1 0 ⟨groups.length, _, nodesGet_append_length _, ?_⟩
          simp
        
theorem processDependency_covers (fs : FS) (root : Location)
    (cache : DependencyCache) {i : Nat} {s : PopulateState} {out : List Nat}
    {d : Location} {s2 : PopulateState} {out2 : List Nat}
    (hrel : diffPaths d root ≠ [])
    (hcov : CoverInv s.all_nodes s.analysis_groups)
    (h : processDependency fs root cache i (s, out) d = .ok (s2, out2)) :
    CoverInv s2.all_nodes s2.analysis_groups := by
  simp only [processDependency] at h
  cases hg : (s.node_map d).bind (fun t => (s.all_nodes.get? t).map (fun _ => t)) with
  | some tIdx =>
    simp only [hg] at h
    cases hat : attachToExistingTarget fs root s i tIdx with
    | error e => simp only [hat] at h; cases h
    | ok s3 =>
      simp only [hat] at h
      injection h with h
      injection h with he1 he2
      subst he1
      simp only [attachToExistingTarget] at hat
      cases ht : s.all_nodes.get? tIdx with
      | none => simp only [ht] at hat; cases hat
      | some target0 =>
        simp only [ht] at hat
        rcases groupIncomingLoop_frame fs root i target0.chunk _ _ _ hat with
          ⟨h1, _, _, h4⟩
        have h1a : s3.all_nodes = s.all_nodes.set tIdx
            { target0 with incoming := setInsert target0.incoming i } := h1
        have h4a : ∀ x, Covers s.analysis_groups x → Covers s3.analysis_groups x := h4
        intro j hj
        have hj2 : j < s.all_nodes.length := by
          rw [h1a, List.length_set] at hj
          exact hj
        exact h4a j (hcov j hj2)
  | none =>
    simp only [hg] at h
    cases hgi : groupInclusionLoop fs root s.all_nodes.length i none s 0
        (groupPathsList (diffPaths d root)) with
    | error e => simp only [hgi] at h; cases h
    | ok s3 =>
      simp only [hgi] at h
      injection h with h
      injection h with he1 he2
      subst he1
      rcases groupInclusionLoop_frame fs root s.all_nodes.length i none _ _ _ _ hgi with
        ⟨h1, _, _, h4, h5⟩
      have h1a : s3.all_nodes = s.all_nodes := h1
      have h4a : ∀ x, Covers s.analysis_groups x → Covers s3.analysis_groups x := h4
      have h5a : Covers s3.analysis_groups s.all_nodes.length :=
        h5 (groupPathsList_ne_nil hrel)
      exact coverInv_extend hcov h1a h4a h5a _

theorem dependencyFold_covers (fs : FS) (root : Location)
    (cache : DependencyCache) {i : Nat} :
    ∀ ds (acc acc2 : PopulateState × List Nat),
      (∀ d ∈ ds, diffPaths d root ≠ []) →
      CoverInv acc.1.all_nodes acc.1.analysis_groups →
      dependencyFold fs root cache i acc ds = .ok acc2 →
      CoverInv acc2.1.all_nodes acc2.1.analysis_groups := by
  intro ds
  induction ds with
  | nil =>
    intro acc acc2 _ hcov h
    simp only [dependencyFold] at h
    injection h with h
    subst h
    exact hcov
  | cons d rest ih =>
    intro acc acc2 hds hcov h
    obtain ⟨s0, out0⟩ := acc
    simp only [dependencyFold] at h
    cases hp : processDependency fs root cache i (s0, out0) d with
    | error e => simp only [hp] at h; cases h
    | ok accm =>
      obtain ⟨sm, outm⟩ := accm
      simp only [hp] at h
      have hd0 : diffPaths d root ≠ [] := hds d (List.mem_cons_self d rest)
      exact ih (sm, outm) acc2 (fun e he => hds e (List.mem_cons_of_mem _ he))
        (processDependency_covers fs root cache hd0 hcov hp) h

theorem finalize_covers (fs : FS) (root : Location) {s : PopulateState} {i : Nat}
    {out : List Nat} {s2 : PopulateState}
    (hcov : CoverInv s.all_nodes s.analysis_groups)
    (h : finalizeNode fs root s i out = .ok s2) :
    CoverInv s2.all_nodes s2.analysis_groups := by
  simp only [finalizeNode] at h
  cases hi : s.all_nodes.get? i with
  | none => simp only [hi] at h; cases h
  | some node =>
    simp only [hi] at h
    rcases groupOutgoingLoop_frame fs root node.chunk out _ _ _ h with ⟨h1, _, _, h4⟩
    have h1a : s2.all_nodes = s.all_nodes.set i
        { node with outgoing := out, stem := some (lastComponent node.full_path) } := h1
    have h4a : ∀ x, Covers s.analysis_groups x → Covers s2.analysis_groups x := h4
    intro j hj
    have hj2 : j < s.all_nodes.length := by
      rw [h1a, List.length_set] at hj
      exact hj
    exact h4a j (hcov j hj2)

theorem popStep_covers (fs : FS) (root : Location) (cache : DependencyCache)
    (hcache : ∀ l m, cache l = some m →
      ∀ d ∈ m.dependencies.filterMap Dependency.location, diffPaths d root ≠ [])
    {s : PopulateState} {i : Nat} {rest : List Nat} {s2 : PopulateState}
    (hcov : CoverInv s.all_nodes s.analysis_groups)
    (h : popStep fs root cache s i rest = .ok s2) :
    CoverInv s2.all_nodes s2.analysis_groups := by
  simp only [popStep] at h
  cases hi : s.all_nodes.get? i with
  | none => simp only [hi] at h; cases h
  | some node =>
    simp only [hi] at h
    cases hc : cache node.full_path with
    | none =>
      simp only [hc] at h
      injection h with h
      subst h
      exact hcov
    | some module =>
      simp only [hc] at h
      cases hf : dependencyFold fs root cache i ({ s with queue := rest }, [])
          (module.dependencies.filterMap Dependency.location) with
      | error e => simp only [hf] at h; cases h
      | ok acc =>
        obtain ⟨sm, outm⟩ := acc
        simp only [hf] at h
        have hds := hcache node.full_path module hc
        have hmid := dependencyFold_covers fs root cache _ _ _ hds hcov hf
        exact finalize_covers fs root hmid h

theorem populateLoop_covers (fs : FS) (root : Location) (cache : DependencyCache)
    (hcache : ∀ l m, cache l = some m →
      ∀ d ∈ m.dependencies.filterMap Dependency.location, diffPaths d root ≠ []) :
    ∀ fuel (s s2 : PopulateState), CoverInv s.all_nodes s.analysis_groups →
      populateLoop fs root cache fuel s = .ok s2 →
      CoverInv s2.all_nodes s2.analysis_groups := by
  intro fuel
  induction fuel with
  | zero =>
    intro s s2 hcov h
    rw [populateLoop] at h
    cases hq : s.queue with
    | nil =>
      simp only [hq] at h
      injection h with h
      subst h
      exact hcov
    | cons i rest =>
      simp only [hq] at h
      cases h
  | succ fuel ih =>
    intro s s2 hcov h
    rw [populateLoop] at h
    cases hq : s.queue with
    | nil =>
      simp only [hq] at h
      injection h with h
      subst h
      exact hcov
    | cons i rest =>
      simp only [hq] at h
      cases hp : popStep fs root cache s i rest with
      | error e => simp only [hp] at h; cases h
      | ok sm =>
        simp only [hp] at h
        exact ih sm s2 (popStep_covers fs root cache hcache hcov hp) h

theorem create_covers (fs : FS) (cfg : Resolver) (cache : DependencyCache)
    (entrypoint : Location) (fuel : Nat) (s : PopulateState)
    (hentry : diffPaths entrypoint cfg.resolve_root ≠ [])
    (hcache : ∀ l m, cache l = some m →
      ∀ d ∈ m.dependencies.filterMap Dependency.location,
        diffPaths d cfg.resolve_root ≠ [])
    (h : create_from_cache fs cfg cache entrypoint fuel = .ok s) :
    CoverInv s.all_nodes s.analysis_groups := by
  simp only [create_from_cache] at h
  split at h
  · cases h
  · rename_i groups gmap heq
    rcases seedGroups_covers fs cfg.resolve_root _ _ _ _ _ _ heq with ⟨_, hc0⟩
    have hcov0 : Covers groups 0 := hc0 (groupPathsList_ne_nil hentry)
    refine populateLoop_covers fs cfg.resolve_root cache hcache fuel _ s ?_ h
    intro j hj
    have hj1 : j < 1 := hj
    have hj0 : j = 0 := Nat.lt_one_iff.mp hj1
    rw [hj0]
    exact hcov0

theorem augmentInclusionLoop_done (report : WebpackReport) (relevant : List Nat) :
    ∀ cs nodes ident res,
      augmentInclusionLoop report relevant (nodes, ident) cs = .ok res →
      res.1.length = nodes.length ∧
      (∀ j nj, nodes.get? j = some nj →
        ∃ nj2, res.1.get? j = some nj2 ∧ (NodeDone nj → NodeDone nj2)) ∧
      (∀ c ∈ cs, ∃ nc2, res.1.get? c = some nc2 ∧ NodeDone nc2) := by
  intro cs
  induction cs with
  | nil =>
    intro nodes ident res h
    simp only [augmentInclusionLoop] at h
    injection h with h
    subst h
    exact ⟨rfl, fun j nj hj => ⟨nj, hj, id⟩, fun c hc => absurd hc (List.not_mem_nil c)⟩
  | cons c cs ih =>
    intro nodes ident res h
    simp only [augmentInclusionLoop] at h
    cases hn : nodes.get? c with
    | none => simp only [hn] at h; cases h
    | some node =>
      simp only [hn] at h
      have hcl : c < nodes.length := nodesGet_lt hn
      cases hch : node.chunk with
      | some v =>
        simp only [hch] at h
        rcases ih _ _ _ h with ⟨l1, l2, l3⟩
        refine ⟨l1, l2, ?_⟩
        intro c2 hc2
        rcases List.mem_cons.mp hc2 with rfl | hmem
        · rcases l2 c2 node hn with ⟨nj2, hj2, hmono⟩
          exact ⟨nj2, hj2, hmono (.inr (by rw [hch]; rfl))⟩
        · exact l3 c2 hmem
      | none =>
        simp only [hch] at h
        cases hm : report.chunk_mapping node.full_path with
        | none =>
          simp only [hm] at h
          rcases ih _ _ _ h with ⟨l1, l2, l3⟩
          refine ⟨?_, ?_, ?_⟩
          · rw [l1, List.length_set]
          · intro j nj hj
            by_cases hjc : j = c
            · subst hjc
              rcases l2 j _ (nodesGet_set_self hcl) with ⟨nj2, hj2, hmono⟩
              exact ⟨nj2, hj2, fun _ => hmono (.inl rfl)⟩
            · rcases l2 j nj (by rw [nodesGet_set_ne _ (fun he => hjc he.symm)]; exact hj)
                with ⟨nj2, hj2, hmono⟩
              exact ⟨nj2, hj2, hmono⟩
          · intro c2 hc2
            rcases List.mem_cons.mp hc2 with rfl | hmem
            · rcases l2 c2 _ (nodesGet_set_self hcl) with ⟨nj2, hj2, hmono⟩
              exact ⟨nj2, hj2, hmono (.inl rfl)⟩
            · exact l3 c2 hmem
        | some chunks =>
          simp only [hm] at h
          cases hf : chunks.find? (fun ch => relevant.contains ch.id) with
          | none =>
            simp only [hf] at h
            rcases ih _ _ _ h with ⟨l1, l2, l3⟩
            refine ⟨?_, ?_, ?_⟩
            · rw [l1, List.length_set]
            · intro j nj hj
              by_cases hjc : j = c
              · subst hjc
                rcases l2 j _ (nodesGet_set_self hcl) with ⟨nj2, hj2, hmono⟩
                exact ⟨nj2, hj2, fun _ => hmono (.inl rfl)⟩
              · rcases l2 j nj (by rw [nodesGet_set_ne _ (fun he => hjc he.symm)]; exact hj)
                  with ⟨nj2, hj2, hmono⟩
                exact ⟨nj2, hj2, hmono⟩
            · intro c2 hc2
              rcases List.mem_cons.mp hc2 with rfl | hmem
              · rcases l2 c2 _ (nodesGet_set_self hcl) with ⟨nj2, hj2, hmono⟩
                exact ⟨nj2, hj2, hmono (.inl rfl)⟩
              · exact l3 c2 hmem
          | some ch =>
            simp only [hf] at h
            rcases ih _ _ _ h with ⟨l1, l2, l3⟩
            refine ⟨?_, ?_, ?_⟩
            · rw [l1, List.length_set]
            · intro j nj hj
              by_cases hjc : j = c
              · subst hjc
                rcases l2 j _ (nodesGet_set_self hcl) with ⟨nj2, hj2, hmono⟩
                exact ⟨nj2, hj2, fun _ => hmono (.inr rfl)⟩
              · rcases l2 j nj (by rw [nodesGet_set_ne _ (fun he => hjc he.symm)]; exact hj)
                  with ⟨nj2, hj2, hmono⟩
                exact ⟨nj2, hj2, hmono⟩
            · intro c2 hc2
              rcases List.mem_cons.mp hc2 with rfl | hmem
              · rcases l2 c2 _ (nodesGet_set_self hcl) with ⟨nj2, hj2, hmono⟩
                exact ⟨nj2, hj2, hmono (.inr rfl)⟩
              · exact l3 c2 hmem

theorem augmentGroupLoop_done (report : WebpackReport) (relevant : List Nat) :
    ∀ gis nodes groups extra res,
      augmentGroupLoop report relevant (nodes, groups, extra) gis = .ok res →
      res.1.length = nodes.length ∧
      (∀ j nj, nodes.get? j = some nj →
        ∃ nj2, res.1.get? j = some nj2 ∧ (NodeDone nj → NodeDone nj2)) ∧
      (∀ gi ∈ gis, ∀ g, groups.get? gi = some g → ∀ c ∈ g.inclusions,
        ∃ nc2, res.1.get? c = some nc2 ∧ NodeDone nc2) := by
  intro gis
  induction gis with
  | nil =>
    intro nodes groups extra res h
    simp only [augmentGroupLoop] at h
    injection h with h
    subst h
    exact ⟨rfl, fun j nj hj => ⟨nj, hj, id⟩,
      fun gi hgi => absurd hgi (List.not_mem_nil gi)⟩
  | cons gi gis ih =>
    intro nodes groups extra res h
    simp only [augmentGroupLoop] at h
    cases hg : groups.get? gi with
    | none => simp only [hg] at h; cases h
    | some g =>
      simp only [hg] at h
      cases hil : augmentInclusionLoop report relevant (nodes, []) g.inclusions with
      | error e => simp only [hil] at h; cases h
      | ok pr =>
        obtain ⟨nodesm, identified⟩ := pr
        simp only [hil] at h
        rcases augmentInclusionLoop_done report relevant g.inclusions nodes [] _ hil with
          ⟨a1, a2, a3⟩
        rcases ih _ _ _ _ h with ⟨b1, b2, b3⟩
        have a1a : nodesm.length = nodes.length := a1
        have b1a : res.1.length = nodesm.length := b1
        refine ⟨?_, ?_, ?_⟩
        · rw [b1a, a1a]
        · intro j nj hj
          rcases a2 j nj hj with ⟨njm, hjm, m2⟩
          rcases b2 j njm hjm with ⟨nj2, hj2, m3⟩
          exact ⟨nj2, hj2, fun hd => m3 (m2 hd)⟩
        · intro gj hgj g2 hg2 c hc
          rcases List.mem_cons.mp hgj with rfl | hgj2
          · rw [hg] at hg2
            injection hg2 with hg2
            subst hg2
            rcases a3 c hc with ⟨ncm, hcm, hdm⟩
            rcases b2 c ncm hcm with ⟨nc2, hc2, m3⟩
            exact ⟨nc2, hc2, m3 hdm⟩
          · by_cases hje : gj = gi
            · subst hje
              rw [hg] at hg2
              injection hg2 with hg2
              subst hg2
              exact b3 gj hgj2 _ (nodesGet_set_self (nodesGet_lt hg)) c hc
            · exact b3 gj hgj2 g2
                (by rw [nodesGet_set_ne _ (fun he => hje he.symm)]; exact hg2) c hc

/-- C4: augmentation settles every file node.  If `create_from_cache`
succeeds on inputs whose relative paths are nonempty (the entrypoint and
every cached dependency lie strictly below the resolver root, as for every
real snapshot), and `augment_with_webpack_report` returns `.ok`, then every
node of the result is tree-shaken or carries a chunk. -/
theorem augment_chunk_totality (fs : FS) (cfg : Resolver) (cache : DependencyCache)
    (entrypoint : Location) (fuel : Nat) (s : PopulateState)
    (report : WebpackReport) (pref : Nat) (a : Analysis)
    (hentry : diffPaths entrypoint cfg.resolve_root ≠ [])
    (hcache : ∀ l m, cache l = some m →
      ∀ d ∈ m.dependencies.filterMap Dependency.location,
        diffPaths d cfg.resolve_root ≠ [])
    (hc : create_from_cache fs cfg cache entrypoint fuel = .ok s)
    (ha : augment_with_webpack_report s.toAnalysis report pref = .ok a) :
    ∀ j nj, a.all_nodes.get? j = some nj → NodeDone nj := by
  have hcov := create_covers fs cfg cache entrypoint fuel s hentry hcache hc
  simp only [augment_with_webpack_report, PopulateState.toAnalysis] at ha
  cases h0 : s.all_nodes.get? 0 with
  | none => simp only [h0] at ha; cases ha
  | some entry =>
    simp only [h0] at ha
    cases hm : report.chunk_mapping entry.full_path with
    | none => simp only [hm] at ha; cases ha
    | some lst =>
      simp only [hm] at ha
      cases hp : lst.get? pref with
      | none => simp only [hp] at ha; cases ha
      | some chunk =>
        simp only [hp] at ha
        cases hloop : augmentGroupLoop report
            (setInsert ((chunk.children ++ chunk.siblings).foldl setInsert []) chunk.id)
            (s.all_nodes, s.analysis_groups, [])
            (List.range s.analysis_groups.length) with
        | error e => simp only [hloop] at ha; cases ha
        | ok res =>
          obtain ⟨nodes2, groups2, extra2⟩ := res
          simp only [hloop] at ha
          injection ha with ha
          subst ha
          rcases augmentGroupLoop_done report _ _ _ _ _ _ hloop with ⟨d1, d2, d3⟩
          intro j nj hj
          have hj2 : nodes2.get? j = some nj := hj
          have d1a : nodes2.length = s.all_nodes.length := d1
          have hjl : j < s.all_nodes.length := by
            rw [← d1a]
            exact nodesGet_lt hj2
          rcases hcov j hjl with ⟨gi, g, hg, hmem⟩
          have hgi : gi ∈ List.range s.analysis_groups.length :=
            List.mem_range.mpr (nodesGet_lt hg)
          rcases d3 gi hgi g hg j hmem with ⟨nc2, hc2, hdone⟩
          have hc3 : nodes2.get? j = some nc2 := hc2
          rw [hj2] at hc3
          injection hc3 with hc3
          rw [hc3]
          exact hdone

/-- Extract the success analysis of an `AugResult` (default: empty). -/
def AugResult.analysisD : AugResult → Analysis
  | .ok a => a
  | .aborted _ => ⟨fun _ => none, [], fun _ => none, [], fun _ => none⟩

def w4chunk : Chunk :=
  { id := 7, name := "main", initial := true, parents := [], siblings := [],
    children := [], parsed_size := 0 }

/-- A report that places every file in chunk 7. -/
def w4report : WebpackReport :=
  { chunk_mapping := fun _ => some [w4chunk], chunk_id_map := fun _ => none }

def w4default : AnalysisNode :=
  { identifier := "", stem := none, full_path := [], is_node_module := false,
    depth := 0, inclusions := [], immediate_children := [], tree_shaken := false,
    chunk := none, resolver_relative_path := [], incoming := [], outgoing := [] }

theorem s6cache_rel : ∀ l m, s6cache l = some m →
    ∀ d ∈ m.dependencies.filterMap Dependency.location,
      diffPaths d s6cfg.resolve_root ≠ [] := by
  intro l m hm
  simp only [s6cache] at hm
  split at hm
  · injection hm with hm
    subst hm
    intro d hd
    have hd2 : d ∈ ([["root", "a", "b", "d.js"], ["root", "a", "e.js"]] :
        List Location) := hd
    rcases List.mem_cons.mp hd2 with rfl | hd3
    · decide
    · rcases List.mem_cons.mp hd3 with rfl | hd4
      · decide
      · cases hd4
  · split at hm
    · injection hm with hm
      subst hm
      intro d hd
      have hd2 : d ∈ ([] : List Location) := hd
      cases hd2
    · split at hm
      · injection hm with hm
        subst hm
        intro d hd
        have hd2 : d ∈ ([] : List Location) := hd
        cases hd2
      · cases hm

/-- Witness for `augment_chunk_totality`: the S6 run augmented with a
report mapping every file to chunk 7. -/
theorem augment_chunk_totality_witness :
    NodeDone ((AugResult.analysisD (augment_with_webpack_report
      (PopResult.stateD (create_from_cache s6fs s6cfg s6cache
        ["root", "a", "b", "c.js"] 10)).toAnalysis w4report 0)).all_nodes.headD
      w4default) :=
  augment_chunk_totality s6fs s6cfg s6cache ["root", "a", "b", "c.js"] 10 _ w4report 0 _
    (by decide) s6cache_rel rfl rfl 0 _ rfl

end Chungus
